import Mathlib

/-!
# Verification of the hcm-map journey player and persistence endpoints

Shallow embedding of the map application's pure logic:
* filename sanitization of the upload endpoint (`sanitizeFileName`),
* the step clamp of the journey player (`setStepClamp`),
* the camera sequencer's zoom-out threshold table (`targetZoomOut`, `zoomOutLevel`),
* the two place-sorting comparators (`mapPageCmp`, `mapViewCmp`),
* the `POST /api/places` handler and the `routes` collection merge,
* the journey player's catch-up / animation selection (`setStepModel`),
* the quiz option shuffle (`shuffleQuizOptions`),
* the partial polyline builder (`buildPartialLineByDistance`),
* a JSON value model with the pretty printer and a parser, for the
  persistence round trip.

JavaScript strings compared with `localeCompare` are modelled by
lexicographic comparison of Lean strings; JavaScript numbers that the
handlers merely pass through are modelled by their decimal notation.
-/

/-! ## Filename sanitization (upload endpoint) -/

/-- Character class `[a-zA-Z0-9._-]` of the sanitizer's regular expression. -/
def allowedFileChar (c : Char) : Bool :=
  ('a' ≤ c && c ≤ 'z') || ('A' ≤ c && c ≤ 'Z') || ('0' ≤ c && c ≤ '9') ||
    c = '.' || c = '_' || c = '-'

/-- `name.replace(/[^a-zA-Z0-9._-]/g, "_")`: every character outside the
class is replaced by an underscore. -/
def sanitizeFileName (s : String) : String :=
  ⟨s.data.map (fun c => if allowedFileChar c then c else '_')⟩

/-! ## Step clamp (`setStep` in both map views) -/

/-- `Math.max(0, Math.min(nextIndex, Math.max(0, sortedPlaces.length - 1)))`. -/
def setStepClamp (nextIndex : Int) (placesCount : Nat) : Int :=
  max 0 (min nextIndex (max 0 ((placesCount : Int) - 1)))

/-! ## Zoom-out threshold table (`applyStep` camera sequencer) -/

/-- The chain of `if (distanceKm > …) targetZoomOut = …` assignments: the
source applies them with increasing thresholds and the last satisfied
assignment wins, which is the first match of this descending chain. -/
def targetZoomOut (distanceKm : ℚ) : ℚ :=
  if distanceKm > 4000 then 2.6
  else if distanceKm > 2000 then 3.2
  else if distanceKm > 800 then 3.8
  else if distanceKm > 200 then 4.5
  else if distanceKm > 50 then 5.2
  else 5.8

/-- `Math.max(2.2, Math.min(targetZoomOut, baseZoom - 0.4))`. -/
def zoomOutLevel (distanceKm baseZoom : ℚ) : ℚ :=
  max 2.2 (min (targetZoomOut distanceKm) (baseZoom - 0.4))

/-- C6: the upload sanitizer keeps every character of the class
`[a-zA-Z0-9._-]` and replaces every other character by `_`; in particular
`my photo.png` becomes `my_photo.png`. -/
theorem sanitizeFileName_spec :
    sanitizeFileName "my photo.png" = "my_photo.png" ∧
    ∀ (s : String) (i : Nat),
      (sanitizeFileName s).data.getD i '_' =
        (if allowedFileChar (s.data.getD i '_') then s.data.getD i '_' else '_') := by
  refine ⟨by decide, ?_⟩
  intro s i
  unfold sanitizeFileName
  rcases Nat.lt_or_ge i s.data.length with h | h
  · simp [List.getD_eq_getElem?_getD, List.getElem?_map, List.getElem?_eq_getElem h]
  · have h1 : s.data[i]? = none := List.getElem?_eq_none h
    have h2 : (s.data.map (fun c => if allowedFileChar c then c else '_'))[i]? = none :=
      List.getElem?_eq_none (by simpa using h)
    simp [List.getD_eq_getElem?_getD, h1, h2]

/-- C2: `setStep` clamps its argument to `[0, n-1]` for a non-empty place
list of length `n`, and produces index `0` for an empty list. -/
theorem setStep_clamps (i : Int) (n : Nat) :
    (1 ≤ n → setStepClamp i n = min (max i 0) ((n : Int) - 1)) ∧ setStepClamp i 0 = 0 := by
  unfold setStepClamp
  constructor
  · intro hn
    omega
  · omega

theorem setStep_clamps_witness :
    (1 ≤ 3 ∧ setStepClamp 7 3 = min (max (7 : Int) 0) (((3 : Nat) : Int) - 1)) ∧
      setStepClamp 7 0 = 0 :=
  ⟨⟨by decide, (setStep_clamps 7 3).1 (by decide)⟩, (setStep_clamps 7 0).2⟩

/-- C4: the camera sequencer's zoom-out level follows the threshold table,
never drops below `2.2`, and is monotonically non-increasing in the
origin-to-destination distance for any fixed base zoom. -/
theorem zoomOutLevel_spec :
    (∀ d : ℚ, (d ≤ 50 → targetZoomOut d = 5.8) ∧ (50 < d → d ≤ 200 → targetZoomOut d = 5.2) ∧
      (200 < d → d ≤ 800 → targetZoomOut d = 4.5) ∧ (800 < d → d ≤ 2000 → targetZoomOut d = 3.8) ∧
      (2000 < d → d ≤ 4000 → targetZoomOut d = 3.2) ∧ (4000 < d → targetZoomOut d = 2.6)) ∧
    (∀ d b : ℚ, 2.2 ≤ zoomOutLevel d b) ∧
    (∀ b d₁ d₂ : ℚ, d₁ ≤ d₂ → zoomOutLevel d₂ b ≤ zoomOutLevel d₁ b) := by
  have hanti : ∀ d₁ d₂ : ℚ, d₁ ≤ d₂ → targetZoomOut d₂ ≤ targetZoomOut d₁ := by
    intro d₁ d₂ h
    unfold targetZoomOut
    split_ifs <;> linarith
  refine ⟨?_, ?_, ?_⟩
  · intro d
    refine ⟨?_, ?_, ?_, ?_, ?_, ?_⟩ <;>
      · intros
        unfold targetZoomOut
        split_ifs <;> first | rfl | linarith
  · intro d b
    exact le_max_left _ _
  · intro b d₁ d₂ h
    exact max_le_max le_rfl (min_le_min (hanti d₁ d₂ h) le_rfl)

theorem zoomOutLevel_spec_witness :
    ((100 : ℚ) ≤ 3000 ∧ zoomOutLevel 3000 6 ≤ zoomOutLevel 100 6) ∧
      (50 : ℚ) < 100 ∧ (100 : ℚ) ≤ 200 ∧ targetZoomOut 100 = 5.2 :=
  ⟨⟨by norm_num, zoomOutLevel_spec.2.2 6 100 3000 (by norm_num)⟩,
    by norm_num, by norm_num, (zoomOutLevel_spec.1 100).2.1 (by norm_num) (by norm_num)⟩

/-! ## Place sorting (`sortedPlaces` in both map views)

`localeCompare` is modelled by lexicographic comparison; a missing or
empty JavaScript string field is modelled by `""` (both are falsy). -/

structure Place where
  slug : String := ""
  title : String := ""
  dateStart : String := ""
deriving DecidableEq

/-- Sign-valued model of `a.localeCompare(b)`: lexicographic comparison of
the character sequences. -/
def strCompare (a b : String) : ℚ :=
  if a.data < b.data then -1 else if b.data < a.data then 1 else 0

/-- The fallback display name the map view substitutes for empty fields. -/
def fallbackName : String := "Địa điểm"

/-- The date/title part of the map view's comparator (part_003). -/
def mapViewDateCmp (a b : Place) : ℚ :=
  let aHas := a.dateStart ≠ ""
  let bHas := b.dateStart ≠ ""
  if aHas && bHas then
    let c := strCompare (if a.dateStart = "" then fallbackName else a.dateStart)
      (if b.dateStart = "" then fallbackName else b.dateStart)
    if c ≠ 0 then c
    else strCompare (if a.title = "" then fallbackName else a.title)
      (if b.title = "" then fallbackName else b.title)
  else if aHas && !bHas then -1
  else if !aHas && bHas then 1
  else strCompare (if a.title = "" then fallbackName else a.title)
    (if b.title = "" then fallbackName else b.title)

/-- The map view's comparator: route order first, then date, then title. -/
def mapViewCmp (ord : String → Option ℚ) (a b : Place) : ℚ :=
  let aOrd := if a.slug ≠ "" then ord a.slug else none
  let bOrd := if b.slug ≠ "" then ord b.slug else none
  match aOrd, bOrd with
  | some x, some y => if x ≠ y then x - y else mapViewDateCmp a b
  | some _, none => -1
  | none, some _ => 1
  | none, none => mapViewDateCmp a b

/-- The map page's comparator (part_004): date, then title. -/
def mapPageCmp (a b : Place) : ℚ :=
  let aHas := a.dateStart ≠ ""
  let bHas := b.dateStart ≠ ""
  if aHas && bHas then
    let c := strCompare a.dateStart b.dateStart
    if c ≠ 0 then c else strCompare a.title b.title
  else if aHas && !bHas then -1
  else if !aHas && bHas then 1
  else strCompare a.title b.title

/-- Route feature properties used for ordering and segment matching. -/
structure RouteProps where
  fromSlug : String := ""
  toSlug : String := ""
  order : Option ℚ := none
deriving DecidableEq

/-- `if (cur === undefined || ord < cur) m.set(k, ord)`. -/
def updateMin (m : String → Option ℚ) (k : String) (v : ℚ) : String → Option ℚ :=
  fun s =>
    if s = k then
      match m k with
      | none => some v
      | some c => some (if v < c then v else c)
    else m s

/-- `routeOrderMap`: per slug, the smallest effective `order` (feature
`order` property, or position + 1) among features naming the slug;
features whose effective order is `0` are skipped (falsy). -/
def routeOrderMap (features : List RouteProps) : String → Option ℚ :=
  features.enum.foldl
    (fun m (e : Nat × RouteProps) =>
      let idx := e.1
      let p := e.2
      let ord := p.order.getD ((idx : ℚ) + 1)
      if ord = 0 then m
      else
        let m1 := if p.fromSlug ≠ "" then updateMin m p.fromSlug ord else m
        if p.toSlug ≠ "" then updateMin m1 p.toSlug ord else m1)
    (fun _ => none)

/-- Stable insertion step: `x` precedes the first element it compares
`≤ 0` against (earlier elements win ties, as in a stable sort). -/
def stableInsert (le : α → α → Bool) (x : α) : List α → List α
  | [] => [x]
  | y :: ys => if le x y then x :: y :: ys else y :: stableInsert le x ys

/-- Stable sort by a comparator (JavaScript `Array.sort` is stable). -/
def stableSort (le : α → α → Bool) : List α → List α
  | [] => []
  | x :: xs => stableInsert le x (stableSort le xs)

def sortPlacesView (ord : String → Option ℚ) (l : List Place) : List Place :=
  stableSort (fun a b => mapViewCmp ord a b ≤ 0) l

def sortPlacesPage (l : List Place) : List Place :=
  stableSort (fun a b => mapPageCmp a b ≤ 0) l

/-- Concrete route features giving slug `pa` order 2 and slug `pb` order 1. -/
def c3Features : List RouteProps :=
  [{ fromSlug := "pb", toSlug := "q1", order := some 1 },
   { fromSlug := "pa", toSlug := "q2", order := some 2 }]

def c3PlaceA : Place := { slug := "pa", title := "A", dateStart := "1960" }

def c3PlaceB : Place := { slug := "pb", title := "B", dateStart := "1960" }

/-- C3 counterexample: in the map view's sort, two places with equal
`dateStart` are NOT ordered by title when their route orders differ —
`B` (route order 1) sorts before `A` (route order 2). -/
theorem mapViewCmp_not_title_tiebreak :
    c3PlaceA.dateStart = c3PlaceB.dateStart ∧ strCompare c3PlaceA.title c3PlaceB.title = -1 ∧
      sortPlacesView (routeOrderMap c3Features) [c3PlaceA, c3PlaceB] = [c3PlaceB, c3PlaceA] ∧
      mapViewCmp (routeOrderMap c3Features) c3PlaceA c3PlaceB ≠
        strCompare c3PlaceA.title c3PlaceB.title := by
  have hpa : routeOrderMap c3Features "pa" = some 2 := by decide
  have hpb : routeOrderMap c3Features "pb" = some 1 := by decide
  have hcmp : mapViewCmp (routeOrderMap c3Features) c3PlaceA c3PlaceB = 1 := by
    simp only [mapViewCmp, c3PlaceA, c3PlaceB, ne_eq, String.reduceEq, not_false_eq_true,
      if_true, hpa, hpb]
    norm_num
  refine ⟨rfl, by decide, ?_, ?_⟩
  · norm_num [sortPlacesView, stableSort, stableInsert, hcmp]
  · rw [hcmp]
    decide

/-- C3 (amended): with equal `dateStart`, the map page's comparator always
falls back to the title comparison, and the map view's comparator does so
whenever the two places resolve to the same route order (in particular when
neither has one); the concrete `{B,A}` example sorts as `A, B` in both. -/
theorem placeSort_title_tiebreak :
    (∀ a b : Place, a.dateStart = b.dateStart →
      mapPageCmp a b = strCompare a.title b.title ∧
      ∀ ord : String → Option ℚ,
        (if a.slug ≠ "" then ord a.slug else none) =
            (if b.slug ≠ "" then ord b.slug else none) →
        mapViewCmp ord a b =
          strCompare (if a.title = "" then fallbackName else a.title)
            (if b.title = "" then fallbackName else b.title)) ∧
    sortPlacesPage [{ title := "B", dateStart := "1960" }, { title := "A", dateStart := "1960" }] =
      [{ title := "A", dateStart := "1960" }, { title := "B", dateStart := "1960" }] := by
  have hself : ∀ s : String, strCompare s s = 0 := by
    intro s
    simp [strCompare]
  constructor
  · intro a b hd
    have hdate : mapViewDateCmp a b =
        strCompare (if a.title = "" then fallbackName else a.title)
          (if b.title = "" then fallbackName else b.title) := by
      unfold mapViewDateCmp
      rw [hd]
      by_cases hb : b.dateStart = "" <;> simp [hb, hself]
    constructor
    · unfold mapPageCmp
      rw [hd]
      by_cases hb : b.dateStart = "" <;> simp [hb, hself]
    · intro ord ho
      unfold mapViewCmp
      rw [ho]
      cases hbo : (if b.slug ≠ "" then ord b.slug else none) with
      | none => simpa using hdate
      | some x => simpa using hdate
  · decide

theorem placeSort_title_tiebreak_witness :
    (({ title := "A", dateStart := "1960" } : Place).dateStart =
        ({ title := "B", dateStart := "1960" } : Place).dateStart) ∧
      mapPageCmp { title := "A", dateStart := "1960" } { title := "B", dateStart := "1960" } =
        strCompare "A" "B" ∧
      mapViewCmp (fun _ => none) { title := "A", dateStart := "1960" }
          { title := "B", dateStart := "1960" } = strCompare "A" "B" := by
  have h := placeSort_title_tiebreak.1 { title := "A", dateStart := "1960" }
    { title := "B", dateStart := "1960" } rfl
  refine ⟨rfl, h.1, ?_⟩
  simpa using h.2 (fun _ => none) rfl

/-! ## JSON values

JavaScript values that flow through the handlers, with numbers kept in
their decimal notation (sign, integer digits, fraction digits), strings as
Lean strings, and objects as key/value sequences in insertion order. -/

mutual
inductive Json where
  | null : Json
  | bool (b : Bool) : Json
  | num (neg : Bool) (ipHead : Fin 10) (ipTail : List (Fin 10)) (frac : List (Fin 10)) : Json
  | str (s : String) : Json
  | arr (items : JsonArr) : Json
  | obj (fields : JsonObj) : Json

inductive JsonArr where
  | nil : JsonArr
  | cons (hd : Json) (tl : JsonArr) : JsonArr

inductive JsonObj where
  | nil : JsonObj
  | cons (k : String) (v : Json) (tl : JsonObj) : JsonObj
end

deriving instance DecidableEq for Json, JsonArr, JsonObj

/-- Whether an object has a field (`key in obj`). -/
def JsonObj.has : JsonObj → String → Bool
  | .nil, _ => false
  | .cons k _ tl, key => k = key || tl.has key

/-- JavaScript property read: the value of the last matching key. -/
def JsonObj.get? : JsonObj → String → Option Json
  | .nil, _ => none
  | .cons k v tl, key =>
    match tl.get? key with
    | some r => some r
    | none => if k = key then some v else none

/-- Overwrite every binding of `key` in place. -/
def JsonObj.replaceVal : JsonObj → String → Json → JsonObj
  | .nil, _, _ => .nil
  | .cons k w tl, key, v => .cons k (if k = key then v else w) (tl.replaceVal key v)

/-- Append a binding at the end. -/
def JsonObj.push : JsonObj → String → Json → JsonObj
  | .nil, key, v => .cons key v .nil
  | .cons k w tl, key, v => .cons k w (tl.push key v)

/-- JavaScript `{ ...base, key: v }`: the key keeps its position when
present, otherwise it is appended. -/
def JsonObj.set (o : JsonObj) (key : String) (v : Json) : JsonObj :=
  if o.has key then o.replaceVal key v else o.push key v

/-- JavaScript truthiness of a JSON value (`!body`). -/
def jsTruthy : Json → Bool
  | .null => false
  | .bool b => b
  | .num _ ipHead ipTail frac =>
    !((ipHead :: ipTail).all (fun d => d = 0) && frac.all (fun d => d = 0))
  | .str s => s ≠ ""
  | .arr _ => true
  | .obj _ => true

/-- JavaScript property access `v.key`: `undefined` (`none`) unless `v` is
an object with the field. -/
def Json.fieldOrMissing : Json → String → Option Json
  | .obj o, key => o.get? key
  | _, _ => none

/-- `Array.isArray` on an optional value. -/
def isArray : Option Json → Bool
  | some (.arr _) => true
  | _ => false

/-! ## `JSON.stringify(v, null, 2)` -/

/-- The curly braces, built by code point to keep literals simple. -/
def lbrace : Char := Char.ofNat 123

def rbrace : Char := Char.ofNat 125

def digitChar (d : Fin 10) : Char := Char.ofNat (48 + d.val)

/-- Lowercase hexadecimal digit. -/
def hexChar (n : Nat) : Char := if n < 10 then Char.ofNat (48 + n) else Char.ofNat (87 + n)

/-- `JSON.stringify` string escaping: quote, backslash, the short control
escapes, and `\u00xx` for the remaining control characters. -/
def escapeChar (c : Char) : List Char :=
  if c = '"' then ['\\', '"']
  else if c = '\\' then ['\\', '\\']
  else if c = '\n' then ['\\', 'n']
  else if c = '\t' then ['\\', 't']
  else if c = '\r' then ['\\', 'r']
  else if c = '\x08' then ['\\', 'b']
  else if c = '\x0c' then ['\\', 'f']
  else if c.toNat < 32 then ['\\', 'u', '0', '0', hexChar (c.toNat / 16), hexChar (c.toNat % 16)]
  else [c]

def escapeStr (s : List Char) : List Char :=
  s.foldr (fun c acc => escapeChar c ++ acc) []

/-- Digits of a number in decimal notation. -/
def numChars (neg : Bool) (ipHead : Fin 10) (ipTail frac : List (Fin 10)) : List Char :=
  (if neg then ['-'] else []) ++ (ipHead :: ipTail).map digitChar ++
    (if frac.isEmpty then [] else '.' :: frac.map digitChar)

/-- A quoted, escaped string literal. -/
def quoteStr (s : String) : List Char := '"' :: (escapeStr s.data ++ ['"'])

/-- `indent` spaces per nesting level, two spaces each. -/
def indentChars (ind : Nat) : List Char := List.replicate (2 * ind) ' '

theorem jsonArrSizeOf_pos (a : JsonArr) : 0 < sizeOf a := by
  cases a <;> simp_arith

theorem jsonObjSizeOf_pos (o : JsonObj) : 0 < sizeOf o := by
  cases o <;> simp_arith

mutual
/-- `JSON.stringify(v, null, 2)` on the value at nesting level `ind`. -/
def printVal : Nat → Json → List Char
  | _, .null => "null".data
  | _, .bool true => "true".data
  | _, .bool false => "false".data
  | _, .num neg ipHead ipTail frac => numChars neg ipHead ipTail frac
  | _, .str s => quoteStr s
  | _, .arr .nil => "[]".data
  | ind, .arr (.cons x tl) =>
    '[' :: '\n' :: (printItems (ind + 1) x tl ++ '\n' :: (indentChars ind ++ [']']))
  | _, .obj .nil => [lbrace, rbrace]
  | ind, .obj (.cons k v tl) =>
    lbrace :: '\n' :: (printFields (ind + 1) k v tl ++ '\n' :: (indentChars ind ++ [rbrace]))
termination_by ind v => sizeOf v
decreasing_by
  all_goals simp_wf <;> omega

/-- The comma-separated, indented element lines of a non-empty array. -/
def printItems : Nat → Json → JsonArr → List Char
  | ind, x, .nil => indentChars ind ++ printVal ind x
  | ind, x, .cons y tl =>
    indentChars ind ++ (printVal ind x ++ ',' :: '\n' :: printItems ind y tl)
termination_by ind x tl => sizeOf x + sizeOf tl
decreasing_by
  all_goals simp_wf
  all_goals first
    | omega
    | (have h1 := jsonArrSizeOf_pos tl; omega)

/-- The `"key": value` lines of a non-empty object. -/
def printFields : Nat → String → Json → JsonObj → List Char
  | ind, k, v, .nil => indentChars ind ++ (quoteStr k ++ ':' :: ' ' :: printVal ind v)
  | ind, k, v, .cons k2 v2 tl =>
    indentChars ind ++ (quoteStr k ++ ':' :: ' ' :: (printVal ind v ++ ',' :: '\n' :: printFields ind k2 v2 tl))
termination_by ind k v tl => sizeOf v + sizeOf tl
decreasing_by
  all_goals simp_wf
  all_goals first
    | omega
    | (have h1 := jsonObjSizeOf_pos tl; omega)
end

/-- `JSON.stringify(v, null, 2)`. -/
def stringify (v : Json) : String := ⟨printVal 0 v⟩

/-! ## `JSON.parse` -/

/-- JSON insignificant whitespace. -/
def isWsChar (c : Char) : Bool := c = ' ' || c = '\n' || c = '\t' || c = '\r'

def skipWs : List Char → List Char
  | [] => []
  | c :: cs => if isWsChar c then skipWs cs else c :: cs

/-- A decimal digit character. -/
def digit? (c : Char) : Option (Fin 10) :=
  if h : 48 ≤ c.toNat ∧ c.toNat < 58 then some ⟨c.toNat - 48, by omega⟩ else none

/-- Greedily read decimal digits. -/
def readDigits : List Char → List (Fin 10) × List Char
  | [] => ([], [])
  | c :: cs =>
    match digit? c with
    | some d =>
      let r := readDigits cs
      (d :: r.1, r.2)
    | none => ([], c :: cs)

/-- A JSON number in decimal notation: optional sign, integer digits,
optional fraction digits. -/
def parseNumber : List Char → Option (Json × List Char)
  | [] => none
  | c :: cs =>
    let signSplit : Bool × List Char := if c = '-' then (true, cs) else (false, c :: cs)
    match readDigits signSplit.2 with
    | ([], _) => none
    | (d :: ds, r1) =>
      match r1 with
      | c2 :: r2 =>
        if c2 = '.' then
          match readDigits r2 with
          | ([], _) => none
          | (f :: fs, r3) => some (.num signSplit.1 d ds (f :: fs), r3)
        else some (.num signSplit.1 d ds [], c2 :: r2)
      | [] => some (.num signSplit.1 d ds [], [])

/-- A hexadecimal digit's value. -/
def hexVal? (c : Char) : Option Nat :=
  if 48 ≤ c.toNat ∧ c.toNat ≤ 57 then some (c.toNat - 48)
  else if 97 ≤ c.toNat ∧ c.toNat ≤ 102 then some (c.toNat - 87)
  else if 65 ≤ c.toNat ∧ c.toNat ≤ 70 then some (c.toNat - 55)
  else none

/-- The single-character string escapes. -/
def unescape1 (e : Char) : Option Char :=
  if e = '"' then some '"'
  else if e = '\\' then some '\\'
  else if e = '/' then some '/'
  else if e = 'n' then some '\n'
  else if e = 't' then some '\t'
  else if e = 'r' then some '\r'
  else if e = 'b' then some '\x08'
  else if e = 'f' then some '\x0c'
  else none

/-- The body of a string literal after the opening quote: the decoded
characters and the input after the closing quote. -/
def parseStringBody : List Char → Option (List Char × List Char)
  | [] => none
  | c :: cs =>
    if c = '"' then some ([], cs)
    else if c = '\\' then
      match cs with
      | [] => none
      | e :: cs2 =>
        if e = 'u' then
          match cs2 with
          | h1 :: h2 :: h3 :: h4 :: cs4 =>
            match hexVal? h1, hexVal? h2, hexVal? h3, hexVal? h4 with
            | some a, some b, some c2, some d =>
              (parseStringBody cs4).map
                fun r => (Char.ofNat (((a * 16 + b) * 16 + c2) * 16 + d) :: r.1, r.2)
            | _, _, _, _ => none
          | _ => none
        else
          match unescape1 e with
          | some ch => (parseStringBody cs2).map fun r => (ch :: r.1, r.2)
          | none => none
    else (parseStringBody cs).map fun r => (c :: r.1, r.2)
termination_by l => l.length
decreasing_by all_goals simp <;> omega

mutual
/-- One JSON value, skipping leading whitespace; the fuel bounds the
nesting of recursive calls. -/
def parseVal : Nat → List Char → Option (Json × List Char)
  | 0, _ => none
  | fuel + 1, input =>
    match skipWs input with
    | [] => none
    | c :: cs =>
      if c = 'n' then
        match cs with
        | 'u' :: 'l' :: 'l' :: r => some (.null, r)
        | _ => none
      else if c = 't' then
        match cs with
        | 'r' :: 'u' :: 'e' :: r => some (.bool true, r)
        | _ => none
      else if c = 'f' then
        match cs with
        | 'a' :: 'l' :: 's' :: 'e' :: r => some (.bool false, r)
        | _ => none
      else if c = '"' then
        (parseStringBody cs).map fun r => (.str ⟨r.1⟩, r.2)
      else if c = '[' then
        match skipWs cs with
        | [] => none
        | c2 :: r =>
          if c2 = ']' then some (.arr .nil, r)
          else (parseItems fuel (c2 :: r)).map fun r2 => (.arr r2.1, r2.2)
      else if c = lbrace then
        match skipWs cs with
        | [] => none
        | c2 :: r =>
          if c2 = rbrace then some (.obj .nil, r)
          else (parseFields fuel (c2 :: r)).map fun r2 => (.obj r2.1, r2.2)
      else parseNumber (c :: cs)

/-- The elements of a non-empty array, through the closing bracket. -/
def parseItems : Nat → List Char → Option (JsonArr × List Char)
  | 0, _ => none
  | fuel + 1, input =>
    match parseVal fuel input with
    | none => none
    | some (v, r) =>
      match skipWs r with
      | ',' :: r2 => (parseItems fuel r2).map fun r3 => (.cons v r3.1, r3.2)
      | ']' :: r2 => some (.cons v .nil, r2)
      | _ => none

/-- The fields of a non-empty object, through the closing brace. -/
def parseFields : Nat → List Char → Option (JsonObj × List Char)
  | 0, _ => none
  | fuel + 1, input =>
    match skipWs input with
    | [] => none
    | c :: cs =>
      if c = '"' then
        match parseStringBody cs with
        | none => none
        | some (key, r1) =>
          match skipWs r1 with
          | ':' :: r2 =>
            match parseVal fuel r2 with
            | none => none
            | some (v, r3) =>
              match skipWs r3 with
              | [] => none
              | c2 :: r4 =>
                if c2 = ',' then
                  (parseFields fuel r4).map fun r5 => (.cons ⟨key⟩ v r5.1, r5.2)
                else if c2 = rbrace then some (.cons ⟨key⟩ v .nil, r4)
                else none
          | _ => none
      else none
end

/-- `JSON.parse`: the whole input is one value plus trailing whitespace.
The fuel `length + 1` dominates the parser's recursion depth, which grows
by at most two per consumed bracket. -/
def parseJson (s : String) : Option Json :=
  match parseVal (s.data.length + 1) s.data with
  | some (v, r) => if skipWs r = [] then some v else none
  | none => none

/-! ## The `/api/places` and `/api/routes` handlers -/

/-- An HTTP response of the handlers: `{ ok: true }` or an error status. -/
inductive ApiResp where
  | ok : ApiResp
  | err (status : Nat) : ApiResp
deriving DecidableEq

/-- `POST /api/places`: `body` is the parsed request body (`none` when
`request.json()` threw), `writeOk` whether the file write succeeds, `file`
the current content of `places.json`. Returns the response and the file
afterwards. -/
def postPlaces (body : Option Json) (writeOk : Bool) (file : Option String) :
    ApiResp × Option String :=
  match body with
  | none => (.err 500, file)
  | some b =>
    if !jsTruthy b || !isArray (b.fieldOrMissing "places") then (.err 400, file)
    else
      match b.fieldOrMissing "places" with
      | some places =>
        if writeOk then (.ok, some (stringify places ++ "\n")) else (.err 500, file)
      | none => (.err 400, file)

/-- `GET /api/places`: read and `JSON.parse` the file; any failure is a 500. -/
def getPlaces (file : Option String) : ApiResp × Option Json :=
  match file with
  | none => (.err 500, none)
  | some content =>
    match parseJson content with
    | none => (.err 500, none)
    | some v => (.ok, some v)

/-- The fresh collection `{ type: "FeatureCollection", features }`. -/
def freshCollection (features : Json) : Json :=
  .obj (.cons "type" (.str "FeatureCollection") (.cons "features" features .nil))

/-- `buildCollection(features, base)` of the routes handler: spread the
existing collection and replace `features`, or start fresh. -/
def buildCollection (features : Json) (base : Option Json) : Json :=
  match base with
  | some (.obj o) =>
    if o.get? "type" = some (.str "FeatureCollection") then .obj (o.set "features" features)
    else freshCollection features
  | _ => freshCollection features

/-- C7: `POST /api/places` answers `{ ok: true }` exactly when the body is
an object whose `places` field is an array and the write succeeds; a
missing or non-array `places` is a 400 with the file untouched; a failing
write is a 500. -/
theorem postPlaces_spec (body : Option Json) (writeOk : Bool) (file : Option String) :
    ((postPlaces body writeOk file).1 = .ok ↔
      ((∃ o : JsonObj, body = some (.obj o) ∧ isArray (o.get? "places")) ∧ writeOk = true)) ∧
    (∀ b : Json, body = some b → ¬(jsTruthy b = true ∧ isArray (b.fieldOrMissing "places") = true) →
      postPlaces body writeOk file = (.err 400, file)) ∧
    (∀ b : Json, body = some b → jsTruthy b = true → isArray (b.fieldOrMissing "places") = true →
      writeOk = false → (postPlaces body writeOk file).1 = .err 500) := by
  refine ⟨?_, ?_, ?_⟩
  · constructor
    · intro hok
      match body, hok with
      | none, hok => simp [postPlaces] at hok
      | some b, hok =>
        unfold postPlaces at hok
        by_cases ht : jsTruthy b <;> by_cases ha : isArray (b.fieldOrMissing "places") <;>
          simp [ht, ha] at hok
        match b, ha with
        | .obj o, ha =>
          refine ⟨⟨o, rfl, by simpa [Json.fieldOrMissing] using ha⟩, ?_⟩
          rw [Json.fieldOrMissing] at hok
          match hp : o.get? "places", hok with
          | some p, hok =>
            by_cases hw : writeOk
            · exact hw
            · simp [hw] at hok
          | none, hok => simp at hok
    · rintro ⟨⟨o, rfl, ha⟩, hw⟩
      have ht : jsTruthy (.obj o) = true := rfl
      have hfa : isArray ((Json.obj o).fieldOrMissing "places") = true := by
        simpa [Json.fieldOrMissing] using ha
      match hp : (Json.obj o).fieldOrMissing "places" with
      | some p => rw [hp] at hfa; simp [postPlaces, ht, hp, hfa, hw]
      | none => rw [hp] at hfa; simp [isArray] at hfa
  · rintro b rfl hnot
    by_cases ht : jsTruthy b <;> by_cases ha : isArray (b.fieldOrMissing "places") <;>
      simp [postPlaces, ht, ha] at hnot ⊢
  · rintro b rfl ht ha rfl
    match hp : b.fieldOrMissing "places" with
    | some p => rw [hp] at ha; simp [postPlaces, ht, hp, ha]
    | none => rw [hp] at ha; simp [isArray] at ha

theorem postPlaces_spec_witness :
    ((postPlaces (some (.obj (.cons "places" (.arr .nil) .nil))) true none).1 = .ok ↔
      ((∃ o : JsonObj, (some (.obj (.cons "places" (.arr .nil) .nil)) : Option Json) =
          some (.obj o) ∧ isArray (o.get? "places")) ∧ true = true)) ∧
    postPlaces (some .null) true none = (.err 400, none) ∧
    (postPlaces (some (.obj (.cons "places" (.arr .nil) .nil))) false none).1 = .err 500 := by
  have h := postPlaces_spec (some (.obj (.cons "places" (.arr .nil) .nil))) true none
  have h2 := postPlaces_spec (some .null) true none
  have h3 := postPlaces_spec (some (.obj (.cons "places" (.arr .nil) .nil))) false none
  exact ⟨h.1, h2.2.1 .null rfl (by decide), h3.2.2 _ rfl (by decide) (by decide) rfl⟩

theorem JsonObj.has_replaceVal (o : JsonObj) (key k : String) (v : Json) :
    (o.replaceVal key v).has k = o.has k := by
  match o with
  | .nil => rfl
  | .cons k2 w tl =>
    simp [JsonObj.replaceVal, JsonObj.has, JsonObj.has_replaceVal tl key k v]

theorem JsonObj.get?_eq_none_iff_has (o : JsonObj) (k : String) :
    o.get? k = none ↔ o.has k = false := by
  match o with
  | .nil => simp [JsonObj.get?, JsonObj.has]
  | .cons k2 w tl =>
    have ih := JsonObj.get?_eq_none_iff_has tl k
    simp only [JsonObj.get?, JsonObj.has]
    match htl : tl.get? k with
    | some r =>
      have : ¬(tl.has k = false) := by
        rw [← ih]
        simp [htl]
      simp [this]
    | none =>
      have := ih.mp htl
      by_cases hk : k2 = k <;> simp [hk, this]

theorem JsonObj.get?_replaceVal_self (o : JsonObj) (key : String) (v : Json)
    (h : o.has key = true) : (o.replaceVal key v).get? key = some v := by
  match o with
  | .nil => simp [JsonObj.has] at h
  | .cons k2 w tl =>
    simp only [JsonObj.replaceVal, JsonObj.get?]
    by_cases htl : tl.has key
    · rw [JsonObj.get?_replaceVal_self tl key v htl]
    · have hrep : (tl.replaceVal key v).get? key = none := by
        rw [JsonObj.get?_eq_none_iff_has, JsonObj.has_replaceVal]
        simpa using htl
      rw [hrep]
      simp only [JsonObj.has, Bool.or_eq_true] at h
      rcases h with h | h
      · simp only [decide_eq_true_eq] at h
        simp [h]
      · simp [h] at htl

theorem JsonObj.get?_replaceVal_other (o : JsonObj) (key k : String) (v : Json)
    (h : k ≠ key) : (o.replaceVal key v).get? k = o.get? k := by
  match o with
  | .nil => rfl
  | .cons k2 w tl =>
    simp only [JsonObj.replaceVal, JsonObj.get?,
      JsonObj.get?_replaceVal_other tl key k v h]
    match htl : tl.get? k with
    | some r => rfl
    | none =>
      by_cases hk : k2 = k
      · have hk2 : ¬(k2 = key) := by
          rw [hk]
          exact h
        simp [hk, hk2]
        exact fun hke => absurd hke h
      · simp [hk]

theorem JsonObj.get?_push_self (o : JsonObj) (key : String) (v : Json)
    (h : o.has key = false) : (o.push key v).get? key = some v := by
  match o with
  | .nil => simp [JsonObj.push, JsonObj.get?]
  | .cons k2 w tl =>
    simp only [JsonObj.has, Bool.or_eq_false_iff] at h
    simp only [JsonObj.push, JsonObj.get?, JsonObj.get?_push_self tl key v h.2]

theorem JsonObj.get?_push_other (o : JsonObj) (key k : String) (v : Json)
    (h : k ≠ key) : (o.push key v).get? k = o.get? k := by
  match o with
  | .nil =>
    have : ¬(key = k) := fun hh => h hh.symm
    simp [JsonObj.push, JsonObj.get?, this]
  | .cons k2 w tl =>
    simp only [JsonObj.push, JsonObj.get?, JsonObj.get?_push_other tl key k v h]

theorem JsonObj.get?_set_self (o : JsonObj) (key : String) (v : Json) :
    (o.set key v).get? key = some v := by
  unfold JsonObj.set
  by_cases h : o.has key
  · simp only [h, if_true]
    exact o.get?_replaceVal_self key v h
  · simp only [h]
    exact o.get?_push_self key v (by simpa using h)

theorem JsonObj.get?_set_other (o : JsonObj) (key k : String) (v : Json) (h : k ≠ key) :
    (o.set key v).get? k = o.get? k := by
  unfold JsonObj.set
  by_cases hh : o.has key <;> simp only [hh, if_true, if_false]
  · exact o.get?_replaceVal_other key k v h
  · exact o.get?_push_other key k v h

/-- C8: when the existing `routes.json` is a `FeatureCollection`, the
written collection is the existing object with only `features` replaced —
every other field reads back unchanged; otherwise a fresh
`{ type: "FeatureCollection", features }` is built. -/
theorem buildCollection_spec (features : Json) :
    (∀ o : JsonObj, o.get? "type" = some (.str "FeatureCollection") →
      buildCollection features (some (.obj o)) = .obj (o.set "features" features) ∧
      (o.set "features" features).get? "features" = some features ∧
      (∀ k, k ≠ "features" → (o.set "features" features).get? k = o.get? k)) ∧
    (∀ base : Option Json,
      (∀ o : JsonObj, base = some (.obj o) → o.get? "type" ≠ some (.str "FeatureCollection")) →
      buildCollection features base = freshCollection features) := by
  constructor
  · intro o h
    refine ⟨by simp [buildCollection, h], o.get?_set_self "features" features, ?_⟩
    intro k hk
    exact o.get?_set_other "features" k features hk
  · intro base h
    match base with
    | none => rfl
    | some .null => rfl
    | some (.bool b) => rfl
    | some (.num n d t f) => rfl
    | some (.str s) => rfl
    | some (.arr items) => rfl
    | some (.obj o) =>
      have := h o rfl
      simp [buildCollection, this]

theorem buildCollection_spec_witness :
    (buildCollection (.arr .nil)
        (some (.obj (.cons "type" (.str "FeatureCollection") (.cons "name" (.str "vn") .nil)))) =
      .obj ((JsonObj.cons "type" (.str "FeatureCollection") (.cons "name" (.str "vn") .nil)).set
        "features" (.arr .nil))) ∧
    ((JsonObj.cons "type" (.str "FeatureCollection") (.cons "name" (.str "vn") .nil)).set
        "features" (.arr .nil)).get? "name" = some (.str "vn") ∧
    buildCollection (.arr .nil) (some .null) = freshCollection (.arr .nil) := by
  have h1 := (buildCollection_spec (.arr .nil)).1
    (.cons "type" (.str "FeatureCollection") (.cons "name" (.str "vn") .nil)) (by decide)
  have h2 := (buildCollection_spec (.arr .nil)).2 (some .null) (by intro o ho; cases ho)
  exact ⟨h1.1, by rw [h1.2.2 "name" (by decide)]; decide, h2⟩

/-! ## Journey player (part_003 `MapView`): catch-up and segment animation -/

/-- The part of the map view's React state that `setStep` touches. -/
structure JState where
  stepIndex : Nat := 0
  hasStarted : Bool := false
  completed : List String := []
  reached : Nat := 0
deriving DecidableEq

/-- `${fromSlug}->${toSlug}` when both slugs are truthy. -/
def pairKey (f : RouteProps) : Option String :=
  if f.fromSlug ≠ "" ∧ f.toSlug ≠ "" then some (f.fromSlug ++ "->" ++ f.toSlug) else none

/-- `routeByPairRef`: one `Map.set` per feature, so the last feature with a
given key wins. -/
def routeByPair (features : List RouteProps) (key : String) : Option RouteProps :=
  features.foldl (fun acc f => if pairKey f = some key then some f else acc) none

/-- `Set.add`. -/
def addKey (l : List String) (k : String) : List String :=
  if k ∈ l then l else l ++ [k]

/-- The key of the segment between consecutive sorted places `i` and `j`. -/
def directKey (places : List Place) (i j : Nat) : Option String :=
  match places[i]?, places[j]? with
  | some a, some b => if a.slug ≠ "" ∧ b.slug ≠ "" then some (a.slug ++ "->" ++ b.slug) else none
  | _, _ => none

/-- The key of segment `i → i+1`. -/
def segKeyAt (places : List Place) (i : Nat) : Option String :=
  directKey places i (i + 1)

/-- The body of `markProgressUpTo`'s loop: add segment `i → i+1` when both
slugs exist and a route feature matches the pair. -/
def markStep (places : List Place) (features : List RouteProps)
    (acc : List String) (i : Nat) : List String :=
  match segKeyAt places i with
  | some key =>
    match routeByPair features key with
    | some _ => addKey acc key
    | none => acc
  | none => acc

/-- `markProgressUpTo(targetIndex, forceStarted)`. -/
def markProgressUpTo (places : List Place) (features : List RouteProps) (st : JState)
    (target : Nat) (forceStarted : Bool) : JState :=
  if places.length < 2 then st
  else
    let maxIndex := min target (places.length - 1)
    let completed' := (List.range maxIndex).foldl (markStep places features) st.completed
    let showProgress := st.hasStarted || forceStarted
    { st with
      completed := completed',
      reached := if showProgress then max st.reached maxIndex else st.reached }

/-- `commitProgress(segmentKey)` as run with the render's `hasStarted`. -/
def commitProgress (st : JState) (renderHasStarted : Bool) (clamped : Nat)
    (segmentKey : Option String) : JState :=
  let completed' :=
    match segmentKey with
    | some k => addKey st.completed k
    | none => st.completed
  { st with
    completed := completed',
    reached := if renderHasStarted then max st.reached clamped else st.reached }

/-- What `setStep` produces besides the new state: the key of the route
feature passed to `animateSegment` (if one was found for the previous
place → target place pair), and the key whose `commitProgress` is deferred
to the animation's completion callback. -/
structure StepResult where
  state : JState
  animatedKey : Option String
  pendingCommit : Option String
deriving DecidableEq

/-- `applyStep(nextIndex, prevIndex)` with `animate = true`, restricted to
the progress/animation bookkeeping (camera easing and popups are
presentation only). `renderHasStarted` is the `hasStarted` the closure saw
when rendered. -/
def applyStepModel (places : List Place) (features : List RouteProps) (st : JState)
    (renderHasStarted : Bool) (nextIndex : Nat) (prevIndex : Option Nat) : StepResult :=
  if places.length = 0 then ⟨st, none, none⟩
  else
    let clamped := min nextIndex (places.length - 1)
    match prevIndex with
    | some prev =>
      if clamped ≠ prev then
        let segKey := directKey places prev clamped
        match segKey with
        | some k =>
          match routeByPair features k with
          | some _ => ⟨st, some k, some k⟩
          | none => ⟨commitProgress st renderHasStarted clamped none, none, none⟩
        | none => ⟨commitProgress st renderHasStarted clamped none, none, none⟩
      else ⟨commitProgress st renderHasStarted clamped none, none, none⟩
    | none => ⟨commitProgress st renderHasStarted clamped none, none, none⟩

/-- `setStep(nextIndex)` of the part_003 map view. -/
def setStepModel (places : List Place) (features : List RouteProps) (st : JState)
    (next : Int) : StepResult :=
  let clamped := (setStepClamp next places.length).toNat
  let st1 :=
    if st.stepIndex + 1 < clamped then markProgressUpTo places features st clamped true
    else st
  if clamped = st.stepIndex then ⟨{ st1 with hasStarted := true }, none, none⟩
  else
    let r := applyStepModel places features st1 st.hasStarted clamped (some st.stepIndex)
    ⟨{ r.state with hasStarted := true, stepIndex := clamped }, r.animatedKey, r.pendingCommit⟩

theorem mem_addKey (l : List String) (key k : String) :
    k ∈ addKey l key ↔ k ∈ l ∨ k = key := by
  unfold addKey
  by_cases h : key ∈ l
  · simp only [h, if_true]
    constructor
    · exact Or.inl
    · rintro (hk | rfl)
      · exact hk
      · exact h
  · simp [h, List.mem_append]

theorem mem_markStep (places : List Place) (features : List RouteProps)
    (acc : List String) (i : Nat) (k : String) :
    k ∈ markStep places features acc i ↔
      k ∈ acc ∨ (segKeyAt places i = some k ∧ (routeByPair features k).isSome = true) := by
  rcases hseg : segKeyAt places i with _ | key
  · simp [markStep, hseg]
  · rcases hf : routeByPair features key with _ | f
    · simp only [markStep, hseg, hf]
      constructor
      · exact Or.inl
      · rintro (hk | ⟨hsk, hiss⟩)
        · exact hk
        · obtain rfl := Option.some_injective _ hsk
          rw [hf] at hiss
          simp at hiss
    · simp only [markStep, hseg, hf, mem_addKey]
      constructor
      · rintro (hk | rfl)
        · exact Or.inl hk
        · exact Or.inr ⟨rfl, by simp [hf]⟩
      · rintro (hk | ⟨hsk, h2⟩)
        · exact Or.inl hk
        · exact Or.inr (Option.some_injective _ hsk).symm

theorem mem_markFold (places : List Place) (features : List RouteProps) :
    ∀ (n : Nat) (acc : List String) (k : String),
      k ∈ (List.range n).foldl (markStep places features) acc ↔
        k ∈ acc ∨ ∃ i, i < n ∧ segKeyAt places i = some k ∧
          (routeByPair features k).isSome = true := by
  intro n
  induction n with
  | zero => simp
  | succ m ih =>
    intro acc k
    rw [List.range_succ, List.foldl_append, List.foldl_cons, List.foldl_nil, mem_markStep,
      ih acc k]
    constructor
    · rintro ((hk | ⟨i, hi, hs, hv⟩) | ⟨hs, hv⟩)
      · exact Or.inl hk
      · exact Or.inr ⟨i, Nat.lt_succ_of_lt hi, hs, hv⟩
      · exact Or.inr ⟨m, Nat.lt_succ_self m, hs, hv⟩
    · rintro (hk | ⟨i, hi, hs, hv⟩)
      · exact Or.inl (Or.inl hk)
      · rcases Nat.lt_succ_iff_lt_or_eq.mp hi with hlt | rfl
        · exact Or.inl (Or.inr ⟨i, hlt, hs, hv⟩)
        · exact Or.inr ⟨hs, hv⟩

/-- C1 (amended): when the target is more than one step ahead, `setStep`
marks the matching route segment of every consecutive pair from index `0`
(not just from the current position) up to the target as completed, without
animating them; the segment it then animates (with its completion deferred)
is the route feature joining the PREVIOUS place directly to the TARGET
place when such a feature exists — when none exists, no segment is
animated; the final hop `target-1 → target` is not specifically animated. -/
theorem setStep_catchup (places : List Place) (features : List RouteProps) (st : JState)
    (next : Int) (clamped : Nat) (hc : clamped = (setStepClamp next places.length).toNat)
    (hjump : st.stepIndex + 1 < clamped) :
    (setStepModel places features st next).state.stepIndex = clamped ∧
    (∀ k, k ∈ (setStepModel places features st next).state.completed ↔
      (k ∈ st.completed ∨ ∃ i, i < clamped ∧ segKeyAt places i = some k ∧
        (routeByPair features k).isSome = true)) ∧
    (setStepModel places features st next).animatedKey =
      (directKey places st.stepIndex clamped).bind
        (fun kk => if (routeByPair features kk).isSome then some kk else none) ∧
    (setStepModel places features st next).pendingCommit =
      (setStepModel places features st next).animatedKey := by
  have hcl : clamped ≤ places.length - 1 := by
    rw [hc]
    unfold setStepClamp
    omega
  have hlen : 3 ≤ places.length := by
    rcases Nat.eq_zero_or_pos places.length with h0 | hpos
    · rw [hc, h0] at hjump
      unfold setStepClamp at hjump
      omega
    · omega
  have hne : ¬(clamped = st.stepIndex) := by omega
  have hr : setStepModel places features st next =
      ⟨{ (applyStepModel places features
            (markProgressUpTo places features st clamped true) st.hasStarted clamped
            (some st.stepIndex)).state with hasStarted := true, stepIndex := clamped },
        (applyStepModel places features
            (markProgressUpTo places features st clamped true) st.hasStarted clamped
            (some st.stepIndex)).animatedKey,
        (applyStepModel places features
            (markProgressUpTo places features st clamped true) st.hasStarted clamped
            (some st.stepIndex)).pendingCommit⟩ := by
    simp only [setStepModel, ← hc, if_pos hjump, if_neg hne]
  have hmark : markProgressUpTo places features st clamped true =
      { st with
        completed := (List.range clamped).foldl (markStep places features) st.completed,
        reached := if st.hasStarted || true then max st.reached clamped else st.reached } := by
    simp only [markProgressUpTo, if_neg (by omega : ¬(places.length < 2)),
      (by omega : min clamped (places.length - 1) = clamped)]
  rw [hr, hmark]
  have happ : ∀ st2 : JState,
      applyStepModel places features st2 st.hasStarted clamped (some st.stepIndex) =
        (match directKey places st.stepIndex clamped with
          | some k =>
            match routeByPair features k with
            | some _ => ⟨st2, some k, some k⟩
            | none => ⟨commitProgress st2 st.hasStarted clamped none, none, none⟩
          | none => ⟨commitProgress st2 st.hasStarted clamped none, none, none⟩) := by
    intro st2
    simp only [applyStepModel, if_neg (by omega : ¬(places.length = 0)),
      (by omega : min clamped (places.length - 1) = clamped), if_pos hne]
  rw [happ]
  rcases hdk : directKey places st.stepIndex clamped with _ | k
  · refine ⟨rfl, ?_, rfl, rfl⟩
    intro k
    simpa [commitProgress] using mem_markFold places features clamped st.completed k
  · rcases hrb : routeByPair features k with _ | f
    · simp only [hrb]
      refine ⟨by trivial, ?_, by simp [hrb], by trivial⟩
      intro k2
      simpa [commitProgress] using mem_markFold places features clamped st.completed k2
    · simp only [hrb]
      refine ⟨by trivial, ?_, by simp [hrb], by trivial⟩
      intro k2
      simpa using mem_markFold places features clamped st.completed k2

/-- Places `a, b, c` with route features `a → b` and `b → c` only. -/
def c1Places : List Place :=
  [{ slug := "a", title := "A", dateStart := "1" },
   { slug := "b", title := "B", dateStart := "2" },
   { slug := "c", title := "C", dateStart := "3" }]

def c1Features : List RouteProps :=
  [{ fromSlug := "a", toSlug := "b" }, { fromSlug := "b", toSlug := "c" }]

/-- C1 counterexample: jumping from step 0 to step 2 marks `a->b` and
`b->c` completed, but the final hop `b->c` is NOT animated — the player
looks up the direct pair `a->c`, finds no feature, and animates nothing. -/
theorem setStep_final_hop_not_animated :
    "a->b" ∈ (setStepModel c1Places c1Features {} 2).state.completed ∧
    "b->c" ∈ (setStepModel c1Places c1Features {} 2).state.completed ∧
    (setStepModel c1Places c1Features {} 2).animatedKey = none ∧
    ¬((setStepModel c1Places c1Features {} 2).animatedKey = some "b->c") := by
  decide

theorem setStep_catchup_witness :
    (setStepModel c1Places c1Features {} 2).state.stepIndex = 2 ∧
    (∀ k, k ∈ (setStepModel c1Places c1Features {} 2).state.completed ↔
      (k ∈ ({} : JState).completed ∨ ∃ i, i < 2 ∧ segKeyAt c1Places i = some k ∧
        (routeByPair c1Features k).isSome = true)) ∧
    (setStepModel c1Places c1Features {} 2).animatedKey =
      (directKey c1Places ({} : JState).stepIndex 2).bind
        (fun kk => if (routeByPair c1Features kk).isSome then some kk else none) ∧
    (setStepModel c1Places c1Features {} 2).pendingCommit =
      (setStepModel c1Places c1Features {} 2).animatedKey :=
  setStep_catchup c1Places c1Features {} 2 2 (by decide) (by decide)

/-! ## Quiz option shuffle (`shuffleQuizOptions`)

The Fisher–Yates draws `Math.floor(Math.random() * (i + 1))` are modelled
by a function `r` giving the drawn index at each loop position. -/

structure QuizQuestion where
  question : String := ""
  options : List String := []
  answerIndex : Int := 0
deriving DecidableEq

/-- `[entries[i], entries[j]] = [entries[j], entries[i]]`. -/
def swapIdx (l : List α) (i j : Nat) : List α :=
  if h : i < l.length ∧ j < l.length then
    (l.set i (l.get ⟨j, h.2⟩)).set j (l.get ⟨i, h.1⟩)
  else l

/-- The Fisher–Yates loop from position `i` down to `1`. -/
def fyLoop (r : Nat → Nat) : Nat → List α → List α
  | 0, l => l
  | i + 1, l => fyLoop r i (swapIdx l (i + 1) (r (i + 1)))

/-- Shuffle of the option/index entries. -/
def shuffleEntries (r : Nat → Nat) (l : List α) : List α :=
  fyLoop r (l.length - 1) l

/-- `shuffleQuizOptions(question)` driven by the draws `r`. -/
def shuffleQuizOptions (r : Nat → Nat) (q : QuizQuestion) : QuizQuestion :=
  let entries := q.options.enum
  let shuffled := shuffleEntries r entries
  let newOptions := shuffled.map (fun e => e.2)
  let fi := shuffled.findIdx (fun e => (e.1 : Int) = q.answerIndex)
  let newAnswerIndex : Int := if fi < shuffled.length then (fi : Int) else -1
  { q with options := newOptions, answerIndex := newAnswerIndex }

theorem cons_set_perm (x : α) (xs : List α) (k : Nat) (hk : k < xs.length) :
    (xs.get ⟨k, hk⟩ :: xs.set k x).Perm (x :: xs) := by
  induction xs generalizing k with
  | nil => simp at hk
  | cons y ys ih =>
    match k with
    | 0 => simpa using List.Perm.swap x y ys
    | k + 1 =>
      have hk2 : k < ys.length := by simpa using hk
      have step1 : ((y :: ys).get ⟨k + 1, hk⟩ :: (y :: ys).set (k + 1) x) =
          ys.get ⟨k, hk2⟩ :: y :: ys.set k x := by simp
      rw [step1]
      exact (List.Perm.swap _ _ _).trans (((ih k hk2).cons y).trans (List.Perm.swap _ _ _))

theorem swapIdx_perm (l : List α) (i j : Nat) : (swapIdx l i j).Perm l := by
  unfold swapIdx
  split
  · next h =>
    obtain ⟨hi, hj⟩ := h
    induction l generalizing i j with
    | nil => simp at hi
    | cons x xs ih =>
      match i, j with
      | 0, 0 => simp
      | 0, k + 1 =>
        have hk : k < xs.length := by simpa using hj
        simpa using cons_set_perm x xs k hk
      | m + 1, 0 =>
        have hm : m < xs.length := by simpa using hi
        simpa using cons_set_perm x xs m hm
      | m + 1, k + 1 =>
        have hm : m < xs.length := by simpa using hi
        have hk : k < xs.length := by simpa using hj
        simpa using (ih m k hm hk).cons x
  · exact List.Perm.refl l

theorem fyLoop_perm (r : Nat → Nat) : ∀ (i : Nat) (l : List α), (fyLoop r i l).Perm l := by
  intro i
  induction i with
  | zero => exact fun l => List.Perm.refl l
  | succ m ih =>
    intro l
    exact (ih (swapIdx l (m + 1) (r (m + 1)))).trans (swapIdx_perm l (m + 1) (r (m + 1)))

theorem shuffleEntries_perm (r : Nat → Nat) (l : List α) : (shuffleEntries r l).Perm l :=
  fyLoop_perm r (l.length - 1) l

/-- C9: shuffling a quiz question permutes its options and moves
`answerIndex` so that it still denotes the same option value. -/
theorem shuffleQuizOptions_spec (r : Nat → Nat) (q : QuizQuestion)
    (hr : ∀ i, r i ≤ i) (h0 : 0 ≤ q.answerIndex)
    (hlt : q.answerIndex.toNat < q.options.length) :
    ((shuffleQuizOptions r q).options).Perm q.options ∧
    0 ≤ (shuffleQuizOptions r q).answerIndex ∧
    (shuffleQuizOptions r q).answerIndex.toNat < (shuffleQuizOptions r q).options.length ∧
    (shuffleQuizOptions r q).options.getD (shuffleQuizOptions r q).answerIndex.toNat "" =
      q.options.getD q.answerIndex.toNat "" := by
  clear hr
  have hperm : (shuffleEntries r q.options.enum).Perm q.options.enum :=
    shuffleEntries_perm r q.options.enum
  set shuffled := shuffleEntries r q.options.enum with hsh
  have hsnd : q.options.enum.map (fun e => e.2) = q.options := List.enumFrom_map_snd 0 q.options
  have hoptperm : (shuffled.map (fun e => e.2)).Perm q.options := by
    rw [← hsnd]
    exact hperm.map _
  set n := q.answerIndex.toNat with hn
  have hmem : ((n, q.options.get ⟨n, hlt⟩) : Nat × String) ∈ q.options.enum := by
    rw [List.mem_enum_iff_get?]
    exact List.get?_eq_get hlt
  have hmem2 : ((n, q.options.get ⟨n, hlt⟩) : Nat × String) ∈ shuffled :=
    hperm.symm.subset hmem
  have hpics : ∃ e ∈ shuffled, (fun e : Nat × String => ((e.1 : Int) = q.answerIndex : Bool)) e
      = true := by
    refine ⟨(n, q.options.get ⟨n, hlt⟩), hmem2, ?_⟩
    simp [hn, Int.toNat_of_nonneg h0]
  have hfi : shuffled.findIdx (fun e => ((e.1 : Int) = q.answerIndex : Bool)) <
      shuffled.length := List.findIdx_lt_length_of_exists hpics
  set fi := shuffled.findIdx (fun e => ((e.1 : Int) = q.answerIndex : Bool)) with hfidef
  have hpfound : ((shuffled.get ⟨fi, hfi⟩).1 : Int) = q.answerIndex := by
    have := @List.findIdx_get _ (fun e => ((e.1 : Int) = q.answerIndex : Bool)) shuffled hfi
    simpa using this
  have hfound_mem : shuffled.get ⟨fi, hfi⟩ ∈ q.options.enum :=
    hperm.subset (shuffled.get_mem _ hfi)
  have hfoundfst : (shuffled.get ⟨fi, hfi⟩).1 = n := by
    have := hpfound
    omega
  have hfoundsnd : (shuffled.get ⟨fi, hfi⟩).2 = q.options.get ⟨n, hlt⟩ := by
    rw [List.mem_enum_iff_get?] at hfound_mem
    rw [hfoundfst] at hfound_mem
    rw [List.get?_eq_get hlt] at hfound_mem
    exact (Option.some_injective _ hfound_mem).symm
  have hres : shuffleQuizOptions r q =
      { q with options := shuffled.map (fun e => e.2),
               answerIndex := if fi < shuffled.length then (fi : Int) else -1 } := by
    simp only [shuffleQuizOptions, hsh, hfidef]
  rw [hres]
  simp only [if_pos hfi]
  have hlen2 : fi < (shuffled.map (fun e => e.2)).length := by simpa using hfi
  refine ⟨hoptperm, Int.ofNat_nonneg fi, by simpa using hfi, ?_⟩
  have htoNat : ((fi : Int)).toNat = fi := rfl
  rw [htoNat]
  have hgetD1 : (shuffled.map (fun e => e.2)).getD fi "" = (shuffled.get ⟨fi, hfi⟩).2 := by
    rw [List.getD_eq_getElem?_getD, List.getElem?_map]
    rw [List.getElem?_eq_getElem hfi]
    simp [List.get_eq_getElem]
  have hgetD2 : q.options.getD n "" = q.options.get ⟨n, hlt⟩ := by
    rw [List.getD_eq_getElem?_getD, List.getElem?_eq_getElem hlt]
    simp [List.get_eq_getElem]
  rw [hgetD1, hgetD2, hfoundsnd]

theorem shuffleQuizOptions_spec_witness :
    ((shuffleQuizOptions (fun _ => 0)
        { question := "q", options := ["x", "y", "z"], answerIndex := 1 }).options).Perm
      ({ question := "q", options := ["x", "y", "z"], answerIndex := 1 } : QuizQuestion).options ∧
    0 ≤ (shuffleQuizOptions (fun _ => 0)
        { question := "q", options := ["x", "y", "z"], answerIndex := 1 }).answerIndex ∧
    (shuffleQuizOptions (fun _ => 0)
        { question := "q", options := ["x", "y", "z"], answerIndex := 1 }).answerIndex.toNat <
      (shuffleQuizOptions (fun _ => 0)
        { question := "q", options := ["x", "y", "z"], answerIndex := 1 }).options.length ∧
    (shuffleQuizOptions (fun _ => 0)
          { question := "q", options := ["x", "y", "z"], answerIndex := 1 }).options.getD
        (shuffleQuizOptions (fun _ => 0)
          { question := "q", options := ["x", "y", "z"], answerIndex := 1 }).answerIndex.toNat "" =
      ({ question := "q", options := ["x", "y", "z"], answerIndex := 1 } :
        QuizQuestion).options.getD
        ({ question := "q", options := ["x", "y", "z"], answerIndex := 1 } :
          QuizQuestion).answerIndex.toNat "" :=
  shuffleQuizOptions_spec (fun _ => 0)
    { question := "q", options := ["x", "y", "z"], answerIndex := 1 }
    (fun i => Nat.zero_le i) (by decide) (by decide)

/-! ## Round trip of `JSON.parse` over `JSON.stringify` -/

/-- The input after a printed value must not continue with digits or a
dot, so that number parsing stops exactly at the value's end; the pretty
printer only ever follows a value with `,`, `\n` or nothing. -/
def numSafe (l : List Char) : Prop :=
  match l with
  | [] => True
  | c :: _ => digit? c = none ∧ c ≠ '.'

theorem skipWs_not_ws (c : Char) (l : List Char) (h : isWsChar c = false) :
    skipWs (c :: l) = c :: l := by
  simp [skipWs, h]

theorem skipWs_spaces (n : Nat) (l : List Char) :
    skipWs (List.replicate n ' ' ++ l) = skipWs l := by
  induction n with
  | zero => rfl
  | succ m ih => simpa [List.replicate_succ, skipWs, isWsChar] using ih

theorem skipWs_indent (n : Nat) (l : List Char) :
    skipWs (indentChars n ++ l) = skipWs l :=
  skipWs_spaces (2 * n) l

theorem skipWs_nl (l : List Char) : skipWs ('\n' :: l) = skipWs l := by
  simp [skipWs, isWsChar]

theorem skipWs_idem (l : List Char) : skipWs (skipWs l) = skipWs l := by
  induction l with
  | nil => rfl
  | cons c cs ih =>
    by_cases h : isWsChar c
    · simpa [skipWs, h] using ih
    · simp [skipWs, h]

theorem parseVal_congr (fuel : Nat) (in1 in2 : List Char) (h : skipWs in1 = skipWs in2) :
    parseVal (fuel + 1) in1 = parseVal (fuel + 1) in2 := by
  simp only [parseVal, h]

theorem parseItems_congr (fuel : Nat) (in1 in2 : List Char) (h : skipWs in1 = skipWs in2) :
    parseItems fuel in1 = parseItems fuel in2 := by
  match fuel with
  | 0 => rfl
  | g + 1 =>
    simp only [parseItems]
    match g with
    | 0 => rfl
    | g2 + 1 => rw [parseVal_congr g2 in1 in2 h]

theorem parseFields_congr (fuel : Nat) (in1 in2 : List Char) (h : skipWs in1 = skipWs in2) :
    parseFields fuel in1 = parseFields fuel in2 := by
  match fuel with
  | 0 => rfl
  | g + 1 => simp only [parseFields, h]

theorem digit?_digitChar (d : Fin 10) : digit? (digitChar d) = some d := by
  fin_cases d <;> decide

theorem isWsChar_digitChar (d : Fin 10) : isWsChar (digitChar d) = false := by
  fin_cases d <;> decide

/-- The input does not begin with a decimal digit. -/
def noDigitStart (l : List Char) : Prop :=
  match l with
  | [] => True
  | c :: _ => digit? c = none

theorem numSafe_noDigitStart (l : List Char) (h : numSafe l) : noDigitStart l := by
  match l, h with
  | [], _ => trivial
  | c :: cs, h => exact h.1

theorem readDigits_round (ds : List (Fin 10)) (rest : List Char) (h : noDigitStart rest) :
    readDigits (ds.map digitChar ++ rest) = (ds, rest) := by
  induction ds with
  | nil =>
    match rest, h with
    | [], _ => rfl
    | c :: cs, h =>
      have h2 : digit? c = none := h
      simp [readDigits, h2]
  | cons d ds ih => simp [readDigits, digit?_digitChar, ih]

theorem digitChar_ne_dash (d : Fin 10) : digitChar d ≠ '-' := by
  fin_cases d <;> decide

theorem parseNumber_round (neg : Bool) (ipHead : Fin 10) (ipTail frac : List (Fin 10))
    (rest : List Char) (h : numSafe rest) :
    parseNumber (numChars neg ipHead ipTail frac ++ rest) =
      some (.num neg ipHead ipTail frac, rest) := by
  have core : ∀ sign : Bool,
      (match readDigits (((ipHead :: ipTail).map digitChar ++
          (if frac.isEmpty then [] else '.' :: frac.map digitChar)) ++ rest) with
        | ([], _) => none
        | (d :: ds, r1) =>
          match r1 with
          | c2 :: r2 =>
            if c2 = '.' then
              match readDigits r2 with
              | ([], _) => none
              | (f :: fs, r3) => some (Json.num sign d ds (f :: fs), r3)
            else some (Json.num sign d ds [], c2 :: r2)
          | [] => some (Json.num sign d ds [], [])) =
        some (Json.num sign ipHead ipTail frac, rest) := by
    intro sign
    match hfr : frac with
    | [] =>
      rw [List.isEmpty_nil, if_pos rfl, List.append_nil]
      rw [readDigits_round (ipHead :: ipTail) rest (numSafe_noDigitStart rest h)]
      match rest, h with
      | [], _ => rfl
      | c :: cs, h =>
        have hne : c ≠ '.' := h.2
        simp [hne]
    | f :: fs =>
      rw [show (f :: fs).isEmpty = false from rfl, if_neg (by simp)]
      have hsafe2 : noDigitStart ('.' :: (f :: fs).map digitChar ++ rest) := by
        show digit? '.' = none
        decide
      rw [List.append_assoc]
      rw [readDigits_round (ipHead :: ipTail) _ hsafe2]
      simp only [List.cons_append, if_pos rfl]
      rw [readDigits_round (f :: fs) rest (numSafe_noDigitStart rest h)]
      simp
  match hn : neg with
  | true =>
    have : numChars true ipHead ipTail frac ++ rest =
        '-' :: (((ipHead :: ipTail).map digitChar ++
          (if frac.isEmpty then [] else '.' :: frac.map digitChar)) ++ rest) := by
      simp [numChars]
    rw [this]
    simp only [parseNumber, if_pos rfl]
    exact core true
  | false =>
    have hhd : numChars false ipHead ipTail frac ++ rest =
        digitChar ipHead :: ((ipTail.map digitChar ++
          (if frac.isEmpty then [] else '.' :: frac.map digitChar)) ++ rest) := by
      simp [numChars]
    rw [hhd]
    simp only [parseNumber, if_neg (digitChar_ne_dash ipHead)]
    have := core false
    simp only [List.map_cons, List.cons_append] at this
    simpa using this

theorem escapeStr_cons (c : Char) (s : List Char) :
    escapeStr (c :: s) = escapeChar c ++ escapeStr s := by
  simp [escapeStr]

theorem hexVal?_hexChar (n : Nat) (h : n < 16) : hexVal? (hexChar n) = some n := by
  interval_cases n <;> decide

theorem parseStringBody_round (s rest : List Char) :
    parseStringBody (escapeStr s ++ '"' :: rest) = some (s, rest) := by
  induction s with
  | nil =>
    simp only [escapeStr, List.foldr_nil, List.nil_append]
    rw [parseStringBody.eq_def]
    simp
  | cons c s ih =>
    rw [escapeStr_cons, List.append_assoc]
    by_cases h1 : c = '"'
    · subst h1
      have he : escapeChar '"' = ['\\', '"'] := by decide
      rw [he]
      simp only [List.cons_append, List.nil_append]
      rw [parseStringBody.eq_def]
      simp [unescape1, ih]
    · by_cases h2 : c = '\\'
      · subst h2
        have he : escapeChar '\\' = ['\\', '\\'] := by decide
        rw [he]
        simp only [List.cons_append, List.nil_append]
        rw [parseStringBody.eq_def]
        simp [unescape1, ih]
      · by_cases h3 : c = '\n'
        · subst h3
          have he : escapeChar '\n' = ['\\', 'n'] := by decide
          rw [he]
          simp only [List.cons_append, List.nil_append]
          rw [parseStringBody.eq_def]
          simp [unescape1, ih]
        · by_cases h4 : c = '\t'
          · subst h4
            have he : escapeChar '\t' = ['\\', 't'] := by decide
            rw [he]
            simp only [List.cons_append, List.nil_append]
            rw [parseStringBody.eq_def]
            simp [unescape1, ih]
          · by_cases h5 : c = '\r'
            · subst h5
              have he : escapeChar '\r' = ['\\', 'r'] := by decide
              rw [he]
              simp only [List.cons_append, List.nil_append]
              rw [parseStringBody.eq_def]
              simp [unescape1, ih]
            · by_cases h6 : c = '\x08'
              · subst h6
                have he : escapeChar '\x08' = ['\\', 'b'] := by decide
                rw [he]
                simp only [List.cons_append, List.nil_append]
                rw [parseStringBody.eq_def]
                simp [unescape1, ih]
              · by_cases h7 : c = '\x0c'
                · subst h7
                  have he : escapeChar '\x0c' = ['\\', 'f'] := by decide
                  rw [he]
                  simp only [List.cons_append, List.nil_append]
                  rw [parseStringBody.eq_def]
                  simp [unescape1, ih]
                · by_cases h8 : c.toNat < 32
                  · have hesc : escapeChar c =
                        ['\\', 'u', '0', '0', hexChar (c.toNat / 16), hexChar (c.toNat % 16)] := by
                      simp [escapeChar, h1, h2, h3, h4, h5, h6, h7, h8]
                    rw [hesc]
                    simp only [List.cons_append, List.nil_append]
                    have hhi : hexVal? (hexChar (c.toNat / 16)) = some (c.toNat / 16) :=
                      hexVal?_hexChar _ (by omega)
                    have hlo : hexVal? (hexChar (c.toNat % 16)) = some (c.toNat % 16) :=
                      hexVal?_hexChar _ (by omega)
                    have harith : ((0 * 16 + 0) * 16 + c.toNat / 16) * 16 + c.toNat % 16 = c.toNat := by
                      omega
                    have harith2 : c.toNat / 16 * 16 + c.toNat % 16 = c.toNat := by omega
                    rw [parseStringBody.eq_def]
                    simp [hhi, hlo, harith, harith2, Char.ofNat_toNat, ih,
                      (by decide : hexVal? '0' = some 0)]
                  · have hesc : escapeChar c = [c] := by
                      simp [escapeChar, h1, h2, h3, h4, h5, h6, h7, h8]
                    rw [hesc]
                    simp only [List.cons_append, List.nil_append]
                    rw [parseStringBody.eq_def]
                    simp [h1, h2, ih]

mutual
/-- Fuel needed by `parseVal` on a printed value. -/
def sizeV : Json → Nat
  | .arr (.cons x tl) => 1 + sizeItems x tl
  | .obj (.cons _ v tl) => 1 + sizeFields v tl
  | _ => 1
termination_by v => sizeOf v
decreasing_by
  all_goals simp_wf
  all_goals omega

/-- Fuel needed by `parseItems` on printed elements. -/
def sizeItems : Json → JsonArr → Nat
  | x, .nil => 1 + sizeV x
  | x, .cons y tl => 1 + sizeV x + sizeItems y tl
termination_by x tl => sizeOf x + sizeOf tl
decreasing_by
  all_goals simp_wf
  all_goals first
    | omega
    | (have h1 := jsonArrSizeOf_pos tl; omega)

/-- Fuel needed by `parseFields` on printed fields. -/
def sizeFields : Json → JsonObj → Nat
  | v, .nil => 1 + sizeV v
  | v, .cons _ v2 tl => 1 + sizeV v + sizeFields v2 tl
termination_by v tl => sizeOf v + sizeOf tl
decreasing_by
  all_goals simp_wf
  all_goals first
    | omega
    | (have h1 := jsonObjSizeOf_pos tl; omega)
end

theorem sizeV_pos (v : Json) : 1 ≤ sizeV v := by
  match v with
  | .null | .bool _ | .num _ _ _ _ | .str _ => simp [sizeV]
  | .arr .nil => simp [sizeV]
  | .arr (.cons x tl) => simp [sizeV]
  | .obj .nil => simp [sizeV]
  | .obj (.cons k v tl) => simp [sizeV]

theorem sizeItems_pos (x : Json) (tl : JsonArr) : 1 ≤ sizeItems x tl := by
  match tl with
  | .nil => simp only [sizeItems]; omega
  | .cons y tl2 => simp only [sizeItems]; omega

theorem sizeFields_pos (v : Json) (tl : JsonObj) : 1 ≤ sizeFields v tl := by
  match tl with
  | .nil => simp only [sizeFields]; omega
  | .cons k v2 tl2 => simp only [sizeFields]; omega

theorem stringMk_data (s : String) : (⟨s.data⟩ : String) = s := rfl

theorem digitChar_head_facts (d : Fin 10) :
    isWsChar (digitChar d) = false ∧ digitChar d ≠ 'n' ∧ digitChar d ≠ 't' ∧
      digitChar d ≠ 'f' ∧ digitChar d ≠ '"' ∧ digitChar d ≠ '[' ∧ digitChar d ≠ lbrace ∧
      digitChar d ≠ ']' ∧ digitChar d ≠ rbrace := by
  fin_cases d <;> exact ⟨by decide, by decide, by decide, by decide, by decide, by decide,
    by decide, by decide, by decide⟩

/-- The first character printed for a number, with the facts the parser's
dispatch needs. -/
theorem numChars_head (neg : Bool) (ipHead : Fin 10) (ipTail frac : List (Fin 10)) :
    ∃ c cs, numChars neg ipHead ipTail frac = c :: cs ∧
      isWsChar c = false ∧ c ≠ 'n' ∧ c ≠ 't' ∧ c ≠ 'f' ∧ c ≠ '"' ∧ c ≠ '[' ∧ c ≠ lbrace ∧
      c ≠ ']' ∧ c ≠ rbrace := by
  match neg with
  | true =>
    refine ⟨'-', (ipHead :: ipTail).map digitChar ++
      (if frac.isEmpty then [] else '.' :: frac.map digitChar), by simp [numChars], by decide,
      by decide, by decide, by decide, by decide, by decide, by decide, by decide, by decide⟩
  | false =>
    obtain ⟨hws, h1, h2, h3, h4, h5, h6, h7, h8⟩ := digitChar_head_facts ipHead
    refine ⟨digitChar ipHead, ipTail.map digitChar ++
      (if frac.isEmpty then [] else '.' :: frac.map digitChar), by simp [numChars], hws,
      h1, h2, h3, h4, h5, h6, h7, h8⟩

/-- The first character of any printed value: never whitespace and never a
closing bracket. -/
theorem printVal_head_spec (ind : Nat) (v : Json) :
    ∃ c cs, printVal ind v = c :: cs ∧ isWsChar c = false ∧ c ≠ ']' ∧ c ≠ rbrace := by
  match v with
  | .null =>
    refine ⟨'n', "ull".data, ?_, by decide, by decide, by decide⟩
    rw [show printVal ind Json.null = "null".data by simp [printVal]]
  | .bool true =>
    refine ⟨'t', "rue".data, ?_, by decide, by decide, by decide⟩
    rw [show printVal ind (Json.bool true) = "true".data by simp [printVal]]
  | .bool false =>
    refine ⟨'f', "alse".data, ?_, by decide, by decide, by decide⟩
    rw [show printVal ind (Json.bool false) = "false".data by simp [printVal]]
  | .num neg h t f =>
    obtain ⟨c, cs, heq, hws, _, _, _, _, _, _, h7, h8⟩ := numChars_head neg h t f
    refine ⟨c, cs, ?_, hws, h7, h8⟩
    rw [show printVal ind (Json.num neg h t f) = numChars neg h t f by simp [printVal]]
    exact heq
  | .str s =>
    refine ⟨'"', escapeStr s.data ++ ['"'], ?_, by decide, by decide, by decide⟩
    rw [show printVal ind (Json.str s) = quoteStr s by simp [printVal]]
    rfl
  | .arr .nil =>
    refine ⟨'[', "]".data, ?_, by decide, by decide, by decide⟩
    rw [show printVal ind (Json.arr .nil) = "[]".data by simp [printVal]]
  | .arr (.cons x tl) =>
    refine ⟨'[', '\n' :: (printItems (ind + 1) x tl ++ '\n' :: (indentChars ind ++ [']'])),
      ?_, by decide, by decide, by decide⟩
    simp [printVal]
  | .obj .nil =>
    refine ⟨lbrace, [rbrace], ?_, by decide, by decide, by decide⟩
    simp [printVal]
  | .obj (.cons k v tl) =>
    refine ⟨lbrace, '\n' :: (printFields (ind + 1) k v tl ++ '\n' :: (indentChars ind ++ [rbrace])),
      ?_, by decide, by decide, by decide⟩
    simp [printVal]

theorem skipWs_printVal (ind : Nat) (v : Json) (rest : List Char) :
    skipWs (printVal ind v ++ rest) = printVal ind v ++ rest := by
  obtain ⟨c, cs, heq, hws, h1, h2⟩ := printVal_head_spec ind v
  rw [heq, List.cons_append, skipWs_not_ws c _ hws]

theorem parseVal_lbracket (g : Nat) (L : List Char) :
    parseVal (g + 1) ('[' :: L) =
      (match skipWs L with
        | [] => none
        | c2 :: r =>
          if c2 = ']' then some (.arr .nil, r)
          else (parseItems g (c2 :: r)).map fun r2 => (.arr r2.1, r2.2)) := by
  simp [parseVal, skipWs, isWsChar]

theorem parseVal_lbrace (g : Nat) (L : List Char) :
    parseVal (g + 1) (lbrace :: L) =
      (match skipWs L with
        | [] => none
        | c2 :: r =>
          if c2 = rbrace then some (.obj .nil, r)
          else (parseFields g (c2 :: r)).map fun r2 => (.obj r2.1, r2.2)) := by
  have h1 : isWsChar lbrace = false := by decide
  have h2 : ¬(lbrace = 'n') := by decide
  have h3 : ¬(lbrace = 't') := by decide
  have h4 : ¬(lbrace = 'f') := by decide
  have h5 : ¬(lbrace = '"') := by decide
  have h6 : ¬(lbrace = '[') := by decide
  simp [parseVal, skipWs_not_ws lbrace L h1, h2, h3, h4, h5, h6]

theorem printItems_nil_eq (ind : Nat) (x : Json) :
    printItems ind x .nil = indentChars ind ++ printVal ind x := by
  simp [printItems]

theorem printItems_cons_eq (ind : Nat) (x y : Json) (tl : JsonArr) :
    printItems ind x (.cons y tl) =
      indentChars ind ++ (printVal ind x ++ ',' :: '\n' :: printItems ind y tl) := by
  simp [printItems]

theorem printFields_nil_eq (ind : Nat) (k : String) (v : Json) :
    printFields ind k v .nil = indentChars ind ++ (quoteStr k ++ ':' :: ' ' :: printVal ind v) := by
  simp [printFields]

theorem printFields_cons_eq (ind : Nat) (k : String) (v : Json) (k2 : String) (v2 : Json)
    (tl : JsonObj) :
    printFields ind k v (.cons k2 v2 tl) =
      indentChars ind ++ (quoteStr k ++ ':' :: ' ' ::
        (printVal ind v ++ ',' :: '\n' :: printFields ind k2 v2 tl)) := by
  simp [printFields]

/-- Printed items, after any leading newline, skip to the head of the
first element's value; `Q` is what follows that value. -/
theorem skipWs_printItems (ind : Nat) (x : Json) (tl : JsonArr) (suf : List Char) :
    ∃ Q, printItems ind x tl ++ suf = indentChars ind ++ (printVal ind x ++ Q) ∧
      skipWs (printItems ind x tl ++ suf) = printVal ind x ++ Q ∧
      skipWs ('\n' :: (printItems ind x tl ++ suf)) = printVal ind x ++ Q := by
  match tl with
  | .nil =>
    refine ⟨suf, ?_, ?_, ?_⟩
    · rw [printItems_nil_eq, List.append_assoc]
    · rw [printItems_nil_eq, List.append_assoc, skipWs_indent, skipWs_printVal]
    · rw [skipWs_nl, printItems_nil_eq, List.append_assoc, skipWs_indent, skipWs_printVal]
  | .cons y tl2 =>
    refine ⟨(',' :: '\n' :: printItems ind y tl2) ++ suf, ?_, ?_, ?_⟩
    · rw [printItems_cons_eq, List.append_assoc, List.append_assoc]
    · rw [printItems_cons_eq, List.append_assoc, List.append_assoc, skipWs_indent,
        skipWs_printVal]
    · rw [skipWs_nl, printItems_cons_eq, List.append_assoc, List.append_assoc, skipWs_indent,
        skipWs_printVal]

/-- Printed fields, after any leading newline, skip to the opening quote
of the first key; `Q` is what follows that field's value. -/
theorem skipWs_printFields (ind : Nat) (k : String) (v : Json) (tl : JsonObj)
    (suf : List Char) :
    ∃ Q, printFields ind k v tl ++ suf =
        indentChars ind ++ ('"' :: (escapeStr k.data ++ '"' :: ':' :: ' ' ::
          (printVal ind v ++ Q))) ∧
      skipWs (printFields ind k v tl ++ suf) =
        '"' :: (escapeStr k.data ++ '"' :: ':' :: ' ' :: (printVal ind v ++ Q)) ∧
      skipWs ('\n' :: (printFields ind k v tl ++ suf)) =
        '"' :: (escapeStr k.data ++ '"' :: ':' :: ' ' :: (printVal ind v ++ Q)) := by
  have hq : ∀ X, quoteStr k ++ ':' :: ' ' :: X = '"' :: (escapeStr k.data ++ '"' :: ':' :: ' ' :: X) := by
    intro X
    simp [quoteStr]
  match tl with
  | .nil =>
    refine ⟨suf, ?_, ?_, ?_⟩
    · rw [printFields_nil_eq, List.append_assoc]
      rw [show (quoteStr k ++ ':' :: ' ' :: printVal ind v) ++ suf =
        quoteStr k ++ ':' :: ' ' :: (printVal ind v ++ suf) by simp]
      rw [hq]
    · rw [printFields_nil_eq, List.append_assoc]
      rw [show (quoteStr k ++ ':' :: ' ' :: printVal ind v) ++ suf =
        quoteStr k ++ ':' :: ' ' :: (printVal ind v ++ suf) by simp]
      rw [hq, skipWs_indent, skipWs_not_ws '"' _ (by decide)]
    · rw [skipWs_nl, printFields_nil_eq, List.append_assoc]
      rw [show (quoteStr k ++ ':' :: ' ' :: printVal ind v) ++ suf =
        quoteStr k ++ ':' :: ' ' :: (printVal ind v ++ suf) by simp]
      rw [hq, skipWs_indent, skipWs_not_ws '"' _ (by decide)]
  | .cons k2 v2 tl2 =>
    refine ⟨(',' :: '\n' :: printFields ind k2 v2 tl2) ++ suf, ?_, ?_, ?_⟩
    · rw [printFields_cons_eq, List.append_assoc]
      rw [show (quoteStr k ++ ':' :: ' ' :: (printVal ind v ++ ',' :: '\n' ::
        printFields ind k2 v2 tl2)) ++ suf = quoteStr k ++ ':' :: ' ' ::
        (printVal ind v ++ ((',' :: '\n' :: printFields ind k2 v2 tl2) ++ suf)) by simp]
      rw [hq]
    · rw [printFields_cons_eq, List.append_assoc]
      rw [show (quoteStr k ++ ':' :: ' ' :: (printVal ind v ++ ',' :: '\n' ::
        printFields ind k2 v2 tl2)) ++ suf = quoteStr k ++ ':' :: ' ' ::
        (printVal ind v ++ ((',' :: '\n' :: printFields ind k2 v2 tl2) ++ suf)) by simp]
      rw [hq, skipWs_indent, skipWs_not_ws '"' _ (by decide)]
    · rw [skipWs_nl, printFields_cons_eq, List.append_assoc]
      rw [show (quoteStr k ++ ':' :: ' ' :: (printVal ind v ++ ',' :: '\n' ::
        printFields ind k2 v2 tl2)) ++ suf = quoteStr k ++ ':' :: ' ' ::
        (printVal ind v ++ ((',' :: '\n' :: printFields ind k2 v2 tl2) ++ suf)) by simp]
      rw [hq, skipWs_indent, skipWs_not_ws '"' _ (by decide)]

theorem skipWs_space (l : List Char) : skipWs (' ' :: l) = skipWs l := by
  simp [skipWs, isWsChar]

theorem numSafe_nl (l : List Char) : numSafe ('\n' :: l) :=
  ⟨by decide, by decide⟩

theorem numSafe_comma (l : List Char) : numSafe (',' :: l) :=
  ⟨by decide, by decide⟩

theorem parseItems_succ (fuel : Nat) (input : List Char) :
    parseItems (fuel + 1) input =
      (match parseVal fuel input with
        | none => none
        | some (v, r) =>
          match skipWs r with
          | ',' :: r2 => (parseItems fuel r2).map fun r3 => (.cons v r3.1, r3.2)
          | ']' :: r2 => some (.cons v .nil, r2)
          | _ => none) := rfl

theorem parseFields_succ (fuel : Nat) (input : List Char) :
    parseFields (fuel + 1) input =
      (match skipWs input with
        | [] => none
        | c :: cs =>
          if c = '"' then
            match parseStringBody cs with
            | none => none
            | some (key, r1) =>
              match skipWs r1 with
              | ':' :: r2 =>
                match parseVal fuel r2 with
                | none => none
                | some (v, r3) =>
                  match skipWs r3 with
                  | [] => none
                  | c2 :: r4 =>
                    if c2 = ',' then
                      (parseFields fuel r4).map fun r5 => (.cons ⟨key⟩ v r5.1, r5.2)
                    else if c2 = rbrace then some (.cons ⟨key⟩ v .nil, r4)
                    else none
              | _ => none
          else none) := rfl

/-- Round trip at every sufficient fuel: a pretty-printed value (or item /
field block) parses back to itself, leaving the suffix untouched. -/
theorem parse_print_round (fuel : Nat) :
    (∀ (v : Json) (ind : Nat) (rest : List Char), sizeV v ≤ fuel → numSafe rest →
      parseVal fuel (printVal ind v ++ rest) = some (v, rest)) ∧
    (∀ (x : Json) (tl : JsonArr) (ind m : Nat) (rest : List Char), sizeItems x tl ≤ fuel →
      numSafe rest →
      parseItems fuel (printItems ind x tl ++ '\n' :: (indentChars m ++ ']' :: rest)) =
        some (.cons x tl, rest)) ∧
    (∀ (k : String) (v : Json) (tl : JsonObj) (ind m : Nat) (rest : List Char),
      sizeFields v tl ≤ fuel → numSafe rest →
      parseFields fuel (printFields ind k v tl ++ '\n' :: (indentChars m ++ rbrace :: rest)) =
        some (.cons k v tl, rest)) := by
  induction fuel with
  | zero =>
    refine ⟨fun v _ _ hs _ => absurd hs (by have := sizeV_pos v; omega),
      fun x tl _ _ _ hs _ => absurd hs (by have := sizeItems_pos x tl; omega),
      fun k v tl _ _ _ hs _ => absurd hs (by have := sizeFields_pos v tl; omega)⟩
  | succ g ih =>
    obtain ⟨ihV, ihI, ihF⟩ := ih
    refine ⟨?_, ?_, ?_⟩
    · intro v ind rest hs hrest
      match v with
      | .null =>
        rw [show printVal ind Json.null = ['n', 'u', 'l', 'l'] by
          rw [show printVal ind Json.null = "null".data by simp [printVal]]]
        simp [parseVal, skipWs, isWsChar]
      | .bool true =>
        rw [show printVal ind (Json.bool true) = ['t', 'r', 'u', 'e'] by
          rw [show printVal ind (Json.bool true) = "true".data by simp [printVal]]]
        simp [parseVal, skipWs, isWsChar]
      | .bool false =>
        rw [show printVal ind (Json.bool false) = ['f', 'a', 'l', 's', 'e'] by
          rw [show printVal ind (Json.bool false) = "false".data by simp [printVal]]]
        simp [parseVal, skipWs, isWsChar]
      | .num neg h t f =>
        rw [show printVal ind (Json.num neg h t f) = numChars neg h t f by simp [printVal]]
        obtain ⟨c, cs, heq, hws, h1, h2, h3, h4, h5, h6, h7, h8⟩ := numChars_head neg h t f
        rw [heq, List.cons_append]
        rw [show parseVal (g + 1) (c :: (cs ++ rest)) = parseNumber (c :: (cs ++ rest)) by
          simp [parseVal, skipWs_not_ws c _ hws, h1, h2, h3, h4, h5, h6]]
        rw [← List.cons_append, ← heq]
        exact parseNumber_round neg h t f rest hrest
      | .str s =>
        rw [show printVal ind (Json.str s) = quoteStr s by simp [printVal]]
        rw [show quoteStr s ++ rest = '"' :: (escapeStr s.data ++ '"' :: rest) by
          simp [quoteStr]]
        simp [parseVal, skipWs, isWsChar, parseStringBody_round]
      | .arr .nil =>
        rw [show printVal ind (Json.arr .nil) = ['[', ']'] by
          rw [show printVal ind (Json.arr .nil) = "[]".data by simp [printVal]]]
        rw [show (['[', ']'] : List Char) ++ rest = '[' :: (']' :: rest) by simp]
        rw [parseVal_lbracket, skipWs_not_ws ']' _ (by decide)]
        simp
      | .arr (.cons x tl) =>
        have hpv : printVal ind (.arr (.cons x tl)) =
            '[' :: '\n' :: (printItems (ind + 1) x tl ++ '\n' :: (indentChars ind ++ [']'])) := by
          simp [printVal]
        rw [hpv]
        have hshape :
            ('[' :: '\n' :: (printItems (ind + 1) x tl ++ '\n' ::
              (indentChars ind ++ [']']))) ++ rest =
              '[' :: '\n' :: (printItems (ind + 1) x tl ++ '\n' ::
                (indentChars ind ++ (']' :: rest))) := by
          simp
        rw [hshape, parseVal_lbracket]
        obtain ⟨c2, cs2, hx, hwx, hxne, hxne2⟩ := printVal_head_spec (ind + 1) x
        obtain ⟨Q, heq, hsk2, hsk1⟩ :=
          skipWs_printItems (ind + 1) x tl ('\n' :: (indentChars ind ++ (']' :: rest)))
        rw [hsk1, hx, List.cons_append]
        simp only [if_neg hxne]
        have hcongr : parseItems g (c2 :: (cs2 ++ Q)) =
            parseItems g (printItems (ind + 1) x tl ++ '\n' ::
              (indentChars ind ++ (']' :: rest))) := by
          apply parseItems_congr
          rw [skipWs_not_ws c2 _ hwx, hsk2, hx, List.cons_append]
        rw [hcongr]
        rw [show printItems (ind + 1) x tl ++ '\n' :: (indentChars ind ++ (']' :: rest)) =
          printItems (ind + 1) x tl ++ '\n' :: (indentChars ind ++ ']' :: rest) by simp]
        have hbound : sizeItems x tl ≤ g := by
          simp only [sizeV] at hs
          omega
        rw [ihI x tl (ind + 1) ind rest hbound hrest]
        rfl
      | .obj .nil =>
        rw [show printVal ind (Json.obj .nil) = [lbrace, rbrace] by simp [printVal]]
        rw [show ([lbrace, rbrace] : List Char) ++ rest = lbrace :: (rbrace :: rest) by simp]
        rw [parseVal_lbrace, skipWs_not_ws rbrace _ (by decide)]
        simp
      | .obj (.cons k v tl) =>
        have hpv : printVal ind (.obj (.cons k v tl)) =
            lbrace :: '\n' :: (printFields (ind + 1) k v tl ++ '\n' ::
              (indentChars ind ++ [rbrace])) := by
          simp [printVal]
        rw [hpv]
        have hshape :
            (lbrace :: '\n' :: (printFields (ind + 1) k v tl ++ '\n' ::
              (indentChars ind ++ [rbrace]))) ++ rest =
              lbrace :: '\n' :: (printFields (ind + 1) k v tl ++ '\n' ::
                (indentChars ind ++ (rbrace :: rest))) := by
          simp
        rw [hshape, parseVal_lbrace]
        obtain ⟨Q, heq, hsk2, hsk1⟩ :=
          skipWs_printFields (ind + 1) k v tl ('\n' :: (indentChars ind ++ (rbrace :: rest)))
        rw [hsk1]
        simp only [if_neg (show ¬('"' = rbrace) by decide)]
        have hcongr : parseFields g ('"' :: (escapeStr k.data ++ '"' :: ':' :: ' ' ::
            (printVal (ind + 1) v ++ Q))) =
            parseFields g (printFields (ind + 1) k v tl ++ '\n' ::
              (indentChars ind ++ (rbrace :: rest))) := by
          apply parseFields_congr
          rw [skipWs_not_ws '"' _ (by decide), hsk2]
        rw [hcongr]
        rw [show printFields (ind + 1) k v tl ++ '\n' :: (indentChars ind ++ (rbrace :: rest)) =
          printFields (ind + 1) k v tl ++ '\n' :: (indentChars ind ++ rbrace :: rest) by simp]
        have hbound : sizeFields v tl ≤ g := by
          simp only [sizeV] at hs
          omega
        rw [ihF k v tl (ind + 1) ind rest hbound hrest]
        rfl
    · intro x tl ind m rest hs hrest
      have hxpos := sizeV_pos x
      match tl with
      | .nil =>
        have hbound : sizeV x ≤ g := by
          simp only [sizeItems] at hs
          omega
        obtain ⟨g2, rfl⟩ : ∃ g2, g = g2 + 1 := ⟨g - 1, by omega⟩
        rw [parseItems_succ]
        have hpv : parseVal (g2 + 1) (printItems ind x .nil ++ '\n' ::
            (indentChars m ++ ']' :: rest)) =
            some (x, '\n' :: (indentChars m ++ ']' :: rest)) := by
          rw [parseVal_congr g2 _ (printVal ind x ++ '\n' :: (indentChars m ++ ']' :: rest))]
          · exact ihV x ind _ hbound (numSafe_nl _)
          · rw [printItems_nil_eq, List.append_assoc, skipWs_indent, skipWs_printVal]
        simp only [hpv, skipWs_nl, skipWs_indent, skipWs_not_ws ']' _ (by decide)]
      | .cons y tl2 =>
        have hbound : sizeV x ≤ g := by
          simp only [sizeItems] at hs
          omega
        have hbound2 : sizeItems y tl2 ≤ g := by
          simp only [sizeItems] at hs ⊢
          omega
        obtain ⟨g2, rfl⟩ : ∃ g2, g = g2 + 1 := ⟨g - 1, by omega⟩
        rw [parseItems_succ]
        have hpv : parseVal (g2 + 1) (printItems ind x (.cons y tl2) ++ '\n' ::
            (indentChars m ++ ']' :: rest)) =
            some (x, ',' :: ('\n' :: (printItems ind y tl2 ++ '\n' ::
              (indentChars m ++ ']' :: rest)))) := by
          rw [parseVal_congr g2 _ (printVal ind x ++ (',' :: ('\n' ::
            (printItems ind y tl2 ++ '\n' :: (indentChars m ++ ']' :: rest)))))]
          · exact ihV x ind _ hbound (numSafe_comma _)
          · rw [printItems_cons_eq, List.append_assoc, skipWs_indent, skipWs_printVal]
            try simp
            try rw [skipWs_printVal]
        have hcongr : parseItems (g2 + 1) ('\n' :: (printItems ind y tl2 ++ '\n' ::
            (indentChars m ++ ']' :: rest))) =
            parseItems (g2 + 1) (printItems ind y tl2 ++ '\n' ::
              (indentChars m ++ ']' :: rest)) :=
          parseItems_congr _ _ _ (skipWs_nl _)
        simp only [hpv, skipWs_not_ws ',' _ (by decide), hcongr,
          ihI y tl2 ind m rest hbound2 hrest]
        rfl
    · intro k v tl ind m rest hs hrest
      have hvpos := sizeV_pos v
      match tl with
      | .nil =>
        have hbound : sizeV v ≤ g := by
          simp only [sizeFields] at hs
          omega
        obtain ⟨g2, rfl⟩ : ∃ g2, g = g2 + 1 := ⟨g - 1, by omega⟩
        rw [parseFields_succ]
        have hshape : printFields ind k v .nil ++ '\n' :: (indentChars m ++ rbrace :: rest) =
            indentChars ind ++ ('"' :: (escapeStr k.data ++ '"' :: ':' :: ' ' ::
              (printVal ind v ++ '\n' :: (indentChars m ++ rbrace :: rest)))) := by
          rw [printFields_nil_eq, List.append_assoc]
          simp [quoteStr]
        have hpv : parseVal (g2 + 1) (' ' :: (printVal ind v ++ '\n' ::
            (indentChars m ++ rbrace :: rest))) =
            some (v, '\n' :: (indentChars m ++ rbrace :: rest)) := by
          rw [parseVal_congr g2 _ (printVal ind v ++ '\n' :: (indentChars m ++ rbrace :: rest))]
          · exact ihV v ind _ hbound (numSafe_nl _)
          · rw [skipWs_space, skipWs_printVal]
        simp only [hshape, skipWs_indent, skipWs_not_ws '"' _ (by decide), if_pos rfl,
          parseStringBody_round k.data, skipWs_not_ws ':' _ (by decide), hpv, skipWs_nl,
          skipWs_not_ws rbrace _ (by decide), if_neg (show ¬(rbrace = ',') by decide),
          if_pos (show rbrace = rbrace from rfl), stringMk_data]
        simp
      | .cons k2 v2 tl2 =>
        have hbound : sizeV v ≤ g := by
          simp only [sizeFields] at hs
          omega
        have hbound2 : sizeFields v2 tl2 ≤ g := by
          simp only [sizeFields] at hs ⊢
          omega
        obtain ⟨g2, rfl⟩ : ∃ g2, g = g2 + 1 := ⟨g - 1, by omega⟩
        rw [parseFields_succ]
        have hshape : printFields ind k v (.cons k2 v2 tl2) ++ '\n' ::
            (indentChars m ++ rbrace :: rest) =
            indentChars ind ++ ('"' :: (escapeStr k.data ++ '"' :: ':' :: ' ' ::
              (printVal ind v ++ ',' :: ('\n' :: (printFields ind k2 v2 tl2 ++ '\n' ::
                (indentChars m ++ rbrace :: rest)))))) := by
          rw [printFields_cons_eq, List.append_assoc]
          simp [quoteStr]
        have hpv : parseVal (g2 + 1) (' ' :: (printVal ind v ++ ',' :: ('\n' ::
            (printFields ind k2 v2 tl2 ++ '\n' :: (indentChars m ++ rbrace :: rest))))) =
            some (v, ',' :: ('\n' :: (printFields ind k2 v2 tl2 ++ '\n' ::
              (indentChars m ++ rbrace :: rest)))) := by
          rw [parseVal_congr g2 _ (printVal ind v ++ ',' :: ('\n' ::
            (printFields ind k2 v2 tl2 ++ '\n' :: (indentChars m ++ rbrace :: rest))))]
          · exact ihV v ind _ hbound (numSafe_comma _)
          · rw [skipWs_space, skipWs_printVal]
        have hcongr : parseFields (g2 + 1) ('\n' :: (printFields ind k2 v2 tl2 ++ '\n' ::
            (indentChars m ++ rbrace :: rest))) =
            parseFields (g2 + 1) (printFields ind k2 v2 tl2 ++ '\n' ::
              (indentChars m ++ rbrace :: rest)) :=
          parseFields_congr _ _ _ (skipWs_nl _)
        simp only [hshape, skipWs_indent, skipWs_not_ws '"' _ (by decide), if_pos rfl,
          parseStringBody_round k.data, skipWs_not_ws ':' _ (by decide), hpv,
          skipWs_not_ws ',' _ (by decide), if_pos (show (',' : Char) = ',' from rfl), hcongr,
          ihF k2 v2 tl2 ind m rest hbound2 hrest, stringMk_data]
        simp

mutual
theorem sizeV_le (v : Json) (ind : Nat) : sizeV v ≤ (printVal ind v).length + 1 := by
  match v with
  | .null | .bool true | .bool false | .num _ _ _ _ | .str _ =>
    simp [sizeV]
  | .arr .nil | .obj .nil => simp [sizeV]
  | .arr (.cons x tl) =>
    have h := sizeItems_le x tl (ind + 1)
    have hlen : (printVal ind (.arr (.cons x tl))).length =
        (printItems (ind + 1) x tl).length + (2 * ind + 4) := by
      simp [printVal, indentChars]
      omega
    simp only [sizeV]
    omega
  | .obj (.cons k v2 tl) =>
    have h := sizeFields_le k v2 tl (ind + 1)
    have hlen : (printVal ind (.obj (.cons k v2 tl))).length =
        (printFields (ind + 1) k v2 tl).length + (2 * ind + 4) := by
      simp [printVal, indentChars]
      omega
    simp only [sizeV]
    omega
termination_by sizeOf v
decreasing_by
  all_goals simp_wf
  all_goals omega

theorem sizeItems_le (x : Json) (tl : JsonArr) (ind : Nat) :
    sizeItems x tl ≤ (printItems ind x tl).length + 2 := by
  match tl with
  | .nil =>
    have h := sizeV_le x ind
    have hlen : (printItems ind x .nil).length = 2 * ind + (printVal ind x).length := by
      simp [printItems_nil_eq, indentChars]
    simp only [sizeItems]
    omega
  | .cons y tl2 =>
    have h := sizeV_le x ind
    have h2 := sizeItems_le y tl2 ind
    have hlen : (printItems ind x (.cons y tl2)).length =
        2 * ind + (printVal ind x).length + 2 + (printItems ind y tl2).length := by
      simp [printItems_cons_eq, indentChars]
      omega
    simp only [sizeItems]
    omega
termination_by sizeOf x + sizeOf tl
decreasing_by
  all_goals simp_wf
  all_goals first
    | omega
    | (have h1 := jsonArrSizeOf_pos tl; omega)

theorem sizeFields_le (k : String) (v : Json) (tl : JsonObj) (ind : Nat) :
    sizeFields v tl ≤ (printFields ind k v tl).length + 2 := by
  match tl with
  | .nil =>
    have h := sizeV_le v ind
    have hlen : (printFields ind k v .nil).length =
        2 * ind + (quoteStr k).length + 2 + (printVal ind v).length := by
      simp [printFields_nil_eq, indentChars]
      omega
    simp only [sizeFields]
    omega
  | .cons k2 v2 tl2 =>
    have h := sizeV_le v ind
    have h2 := sizeFields_le k2 v2 tl2 ind
    have hlen : (printFields ind k v (.cons k2 v2 tl2)).length =
        2 * ind + (quoteStr k).length + 2 + (printVal ind v).length + 2 +
          (printFields ind k2 v2 tl2).length := by
      simp [printFields_cons_eq, indentChars]
      omega
    simp only [sizeFields]
    omega
termination_by sizeOf v + sizeOf tl
decreasing_by
  all_goals simp_wf
  all_goals first
    | omega
    | (have h1 := jsonObjSizeOf_pos tl; omega)
end

/-- `JSON.parse` recovers exactly the value `JSON.stringify(·, null, 2)`
printed, with the handler's trailing newline. -/
theorem parseJson_stringify (v : Json) : parseJson (stringify v ++ "\n") = some v := by
  have hdata : (stringify v ++ "\n").data = printVal 0 v ++ ['\n'] := by
    rw [String.data_append]
    rfl
  unfold parseJson
  rw [hdata]
  have hfuel : sizeV v ≤ (printVal 0 v ++ ['\n']).length + 1 := by
    have := sizeV_le v 0
    simp only [List.length_append, List.length_cons, List.length_nil]
    omega
  rw [(parse_print_round ((printVal 0 v ++ ['\n']).length + 1)).1 v 0 ['\n'] hfuel
    (numSafe_nl [])]
  simp [skipWs, isWsChar]

/-- C5: saving any array of places through `POST /api/places` and reading
it back through `GET /api/places` returns exactly the array that was
saved. -/
theorem places_roundtrip (places : JsonArr) (file : Option String) :
    (postPlaces (some (.obj (.cons "places" (.arr places) .nil))) true file).1 = .ok ∧
    getPlaces (postPlaces (some (.obj (.cons "places" (.arr places) .nil))) true file).2 =
      (.ok, some (.arr places)) := by
  have hbody : postPlaces (some (.obj (.cons "places" (.arr places) .nil))) true file =
      (.ok, some (stringify (.arr places) ++ "\n")) := by
    simp [postPlaces, jsTruthy, Json.fieldOrMissing, JsonObj.get?, isArray]
  rw [hbody]
  exact ⟨rfl, by simp [getPlaces, parseJson_stringify]⟩

/-! ### Partial polyline builder (part_003 lines 495-535)

`haversineMeters` is the source's great-circle distance over real numbers;
`lineDistanceMeters` and `buildPartialLineByDistance` are written generically
over a linear ordered field and an arbitrary segment-distance function so
that they stay executable (the map code instantiates them with the
haversine distance over JS floats, modelled here by `ℝ`). -/

def lineDistGo {α : Type} [LinearOrderedField α] (dist : α × α → α × α → α) :
    α × α → List (α × α) → α
  | _, [] => 0
  | prev, cur :: rest => dist prev cur + lineDistGo dist cur rest

def lineDistanceMeters {α : Type} [LinearOrderedField α]
    (dist : α × α → α × α → α) (coords : List (α × α)) : α :=
  match coords with
  | [] => 0
  | c0 :: rest => lineDistGo dist c0 rest

def bplGo {α : Type} [LinearOrderedField α] (dist : α × α → α × α → α) (d : α) :
    α × α → α → List (α × α) → List (α × α)
  | _, _, [] => []
  | prev, travelled, cur :: rest =>
    if d ≤ travelled + dist prev cur then
      [(prev.1 + (cur.1 - prev.1) *
          (if 0 < dist prev cur then (d - travelled) / dist prev cur else 0),
        prev.2 + (cur.2 - prev.2) *
          (if 0 < dist prev cur then (d - travelled) / dist prev cur else 0))]
    else
      cur :: bplGo dist d cur (travelled + dist prev cur) rest

def buildPartialLineByDistance {α : Type} [LinearOrderedField α]
    (dist : α × α → α × α → α) (coords : List (α × α)) (d : α) : List (α × α) :=
  match coords with
  | [] => []
  | c0 :: rest => if d ≤ 0 then [c0] else c0 :: bplGo dist d c0 0 rest

noncomputable def toRad (v : ℝ) : ℝ := v * Real.pi / 180

noncomputable def haversineMeters (a b : ℝ × ℝ) : ℝ :=
  2 * 6371000 *
    Real.arcsin (Real.sqrt
      (Real.sin (toRad (b.2 - a.2) / 2) * Real.sin (toRad (b.2 - a.2) / 2) +
       Real.cos (toRad a.2) * Real.cos (toRad b.2) *
         Real.sin (toRad (b.1 - a.1) / 2) * Real.sin (toRad (b.1 - a.1) / 2)))

theorem lineDistGo_nonneg {α : Type} [LinearOrderedField α]
    (dist : α × α → α × α → α) (hnn : ∀ a b, 0 ≤ dist a b) :
    ∀ (rest : List (α × α)) (prev : α × α), 0 ≤ lineDistGo dist prev rest
  | [], _ => le_refl 0
  | cur :: rest, prev =>
    add_nonneg (hnn prev cur) (lineDistGo_nonneg dist hnn rest cur)

theorem bplGo_full {α : Type} [LinearOrderedField α]
    (dist : α × α → α × α → α) (hnn : ∀ a b, 0 ≤ dist a b) (d : α)
    (rest : List (α × α)) :
    ∀ (prev : α × α) (travelled : α),
      travelled + lineDistGo dist prev rest < d →
      bplGo dist d prev travelled rest = rest := by
  induction rest with
  | nil => intro prev travelled _; rfl
  | cons cur rest ih =>
    intro prev travelled h
    simp only [lineDistGo] at h
    have h0 : 0 ≤ lineDistGo dist cur rest := lineDistGo_nonneg dist hnn rest cur
    have hc : ¬ d ≤ travelled + dist prev cur := by linarith
    simp only [bplGo, if_neg hc]
    rw [ih cur (travelled + dist prev cur) (by linarith)]

theorem bplGo_length {α : Type} [LinearOrderedField α]
    (dist : α × α → α × α → α) (d : α) (rest : List (α × α)) :
    ∀ (prev : α × α) (travelled : α),
      (bplGo dist d prev travelled rest).length ≤ rest.length := by
  induction rest with
  | nil => intro prev travelled; exact le_refl 0
  | cons cur rest ih =>
    intro prev travelled
    simp only [bplGo]
    split
    · simp [Nat.succ_le_succ]
    · simpa using Nat.succ_le_succ (ih cur (travelled + dist prev cur))

/-- C10 (amended): for every non-negative segment-distance function and
non-empty coordinate list, `buildPartialLineByDistance` starts at the first
input coordinate, returns exactly `[first]` when the requested distance is
non-positive, returns the full input list when the requested distance
strictly exceeds the line's total length, and never produces more points
than the input has. (The original claim's clause that the output's total
haversine length equals `min(requested, total)` is refuted separately: the
code interpolates linearly in coordinate space, which does not preserve
haversine length along a segment.) -/
theorem buildPartialLineByDistance_spec {α : Type} [LinearOrderedField α]
    (dist : α × α → α × α → α) (hnn : ∀ a b, 0 ≤ dist a b)
    (c0 : α × α) (rest : List (α × α)) (d : α) :
    (buildPartialLineByDistance dist (c0 :: rest) d).head? = some c0 ∧
    (d ≤ 0 → buildPartialLineByDistance dist (c0 :: rest) d = [c0]) ∧
    (lineDistanceMeters dist (c0 :: rest) < d →
      buildPartialLineByDistance dist (c0 :: rest) d = c0 :: rest) ∧
    (buildPartialLineByDistance dist (c0 :: rest) d).length ≤ (c0 :: rest).length := by
  refine ⟨?_, ?_, ?_, ?_⟩
  · simp only [buildPartialLineByDistance]
    split <;> rfl
  · intro h
    simp only [buildPartialLineByDistance, if_pos h]
  · intro h
    simp only [lineDistanceMeters] at h
    have hd : ¬ d ≤ 0 := by
      have h0 : 0 ≤ lineDistGo dist c0 rest := lineDistGo_nonneg dist hnn rest c0
      linarith
    simp only [buildPartialLineByDistance, if_neg hd]
    rw [bplGo_full dist hnn d rest c0 0 (by linarith)]
  · simp only [buildPartialLineByDistance]
    split
    · simp
    · simpa using Nat.succ_le_succ (bplGo_length dist d rest c0 0)

def taxiDist (a b : ℚ × ℚ) : ℚ := |b.1 - a.1| + |b.2 - a.2|

theorem buildPartialLineByDistance_spec_witness :
    (∀ a b : ℚ × ℚ, 0 ≤ taxiDist a b) ∧
    ((buildPartialLineByDistance taxiDist [((0 : ℚ), 0), (3, 4)] 10).head? =
        some (0, 0) ∧
      ((10 : ℚ) ≤ 0 →
        buildPartialLineByDistance taxiDist [((0 : ℚ), 0), (3, 4)] 10 = [(0, 0)]) ∧
      (lineDistanceMeters taxiDist [((0 : ℚ), 0), (3, 4)] < 10 →
        buildPartialLineByDistance taxiDist [((0 : ℚ), 0), (3, 4)] 10 =
          [(0, 0), (3, 4)]) ∧
      (buildPartialLineByDistance taxiDist [((0 : ℚ), 0), (3, 4)] 10).length ≤
        ([((0 : ℚ), 0), (3, 4)]).length) :=
  ⟨fun a b => by unfold taxiDist; positivity,
   buildPartialLineByDistance_spec taxiDist
     (fun a b => by unfold taxiDist; positivity) (0, 0) [(3, 4)] 10⟩

theorem hav_0_180 :
    haversineMeters ((0 : ℝ), 60) (180, 60) = 6371000 * Real.pi / 3 := by
  have h60 : toRad (60 : ℝ) = Real.pi / 3 := by rw [toRad]; ring
  have h180 : toRad (180 : ℝ) = Real.pi := by rw [toRad]; ring
  have h0 : toRad (0 : ℝ) = 0 := by rw [toRad]; ring
  have hq : Real.sqrt (1 / 4) = 1 / 2 := by
    rw [show (1 / 4 : ℝ) = (1 / 2) ^ 2 by norm_num,
      Real.sqrt_sq (by norm_num : (0 : ℝ) ≤ 1 / 2)]
  have harc : Real.arcsin (1 / 2) = Real.pi / 6 := by
    rw [← Real.sin_pi_div_six,
      Real.arcsin_sin (by linarith [Real.pi_pos]) (by linarith [Real.pi_pos])]
  simp only [haversineMeters]
  norm_num
  rw [h0, h60, h180]
  norm_num
  have h4 : (Real.sqrt 4)⁻¹ = 1 / 2 := by
    rw [show (4 : ℝ) = 2 ^ 2 by norm_num, Real.sqrt_sq (by norm_num : (0 : ℝ) ≤ 2)]
    norm_num
  rw [h4, harc]
  ring

theorem hav_0_90 :
    haversineMeters ((0 : ℝ), 60) (90, 60) =
      2 * 6371000 * Real.arcsin (Real.sqrt 2 / 4) := by
  have h60 : toRad (60 : ℝ) = Real.pi / 3 := by rw [toRad]; ring
  have h90 : toRad (90 : ℝ) = Real.pi / 2 := by rw [toRad]; ring
  have h0 : toRad (0 : ℝ) = 0 := by rw [toRad]; ring
  simp only [haversineMeters]
  norm_num
  rw [h0, h60, h90]
  norm_num
  rw [show Real.pi / 2 / 2 = Real.pi / 4 by ring, Real.sin_pi_div_four]
  have h2 : Real.sqrt 2 * Real.sqrt 2 = 2 := Real.mul_self_sqrt (by norm_num)
  have hinner : (1 / 4 : ℝ) * (Real.sqrt 2 / 2) * (Real.sqrt 2 / 2) = 1 / 8 := by
    linear_combination h2 / 16
  rw [hinner]
  congr 1
  rw [show (1 / 8 : ℝ) = (Real.sqrt 2 / 4) ^ 2 by
      rw [div_pow, Real.sq_sqrt (by norm_num : (0 : ℝ) ≤ 2)]; norm_num,
    Real.sqrt_sq (by positivity)]

theorem hav_chord_ne :
    2 * 6371000 * Real.arcsin (Real.sqrt 2 / 4) ≠ 6371000 * Real.pi / 6 := by
  intro heq
  have h2nn : (0 : ℝ) ≤ Real.sqrt 2 := Real.sqrt_nonneg 2
  have h2sq : Real.sqrt 2 ^ 2 = 2 := Real.sq_sqrt (by norm_num)
  have h2le : Real.sqrt 2 ≤ 2 := by nlinarith
  have harc : Real.arcsin (Real.sqrt 2 / 4) = Real.pi / 12 := by linarith
  have hsin := Real.sin_arcsin (by linarith : (-1 : ℝ) ≤ Real.sqrt 2 / 4)
    (by linarith : Real.sqrt 2 / 4 ≤ 1)
  rw [harc] at hsin
  have h12 : Real.sin (Real.pi / 12) = (Real.sqrt 6 - Real.sqrt 2) / 4 := by
    rw [show Real.pi / 12 = Real.pi / 3 - Real.pi / 4 by ring, Real.sin_sub,
      Real.sin_pi_div_three, Real.cos_pi_div_four, Real.cos_pi_div_three,
      Real.sin_pi_div_four]
    have h6 : Real.sqrt 6 = Real.sqrt 3 * Real.sqrt 2 := by
      rw [← Real.sqrt_mul (by norm_num : (0 : ℝ) ≤ 3)]
      norm_num
    rw [h6]; ring
  rw [h12] at hsin
  have h6eq : Real.sqrt 6 = 2 * Real.sqrt 2 := by linarith
  have h6sq : Real.sqrt 6 ^ 2 = 6 := Real.sq_sqrt (by norm_num)
  have e := congrArg (fun x : ℝ => x ^ 2) h6eq
  simp only [mul_pow, h6sq, h2sq] at e
  norm_num at e

theorem build_0_180 :
    buildPartialLineByDistance haversineMeters [((0 : ℝ), 60), (180, 60)]
      (6371000 * Real.pi / 6) = [((0 : ℝ), 60), (90, 60)] := by
  have hpi := Real.pi_pos
  have hpine := Real.pi_ne_zero
  have hpos : (0 : ℝ) < 6371000 * Real.pi / 6 := by positivity
  simp only [buildPartialLineByDistance, bplGo]
  rw [if_neg (not_le.mpr hpos), hav_0_180]
  have hcond : 6371000 * Real.pi / 6 ≤ 0 + 6371000 * Real.pi / 3 := by linarith
  have hseg : (0 : ℝ) < 6371000 * Real.pi / 3 := by positivity
  rw [if_pos hcond, if_pos hseg]
  norm_num
  field_simp
  ring

/-- C10 counterexample: with the code's haversine distance, requesting
half the length of the single segment from (0,60) to (180,60) yields the
midpoint-in-coordinates (90,60), but the haversine length of the returned
polyline is 2R*arcsin(sqrt 2/4), which differs from the requested
min(distance, total) = R*pi/6 - linear interpolation in lng/lat space does
not preserve great-circle length. -/
theorem buildPartialLineByDistance_not_length_preserving :
    lineDistanceMeters haversineMeters
        (buildPartialLineByDistance haversineMeters [((0 : ℝ), 60), (180, 60)]
          (6371000 * Real.pi / 6)) ≠
      min (6371000 * Real.pi / 6)
        (lineDistanceMeters haversineMeters [((0 : ℝ), 60), (180, 60)]) := by
  rw [build_0_180]
  simp only [lineDistanceMeters, lineDistGo]
  rw [hav_0_90, hav_0_180, add_zero, add_zero]
  rw [min_eq_left (by linarith [Real.pi_pos])]
  exact hav_chord_ne
